import Mathlib

/-!
Shallow embedding of the ledger core of the repository (the `bank`,
`transaction` and `payment_plan` modules), together with proofs of the
specification's testable properties.

Modelling conventions:
* `PublicKey`, `Signature`, `Hash` are opaque byte strings compared by
  equality; they are modelled as `Nat`.
* `chrono::DateTime<Utc>` values are modelled as `Nat`, with `0` standing
  for `Utc.timestamp(0, 0)` (the zero instant).  Only equality with the
  zero instant and the total order on instants are used by the code.
* `i64` token amounts are modelled as `Int`.  The spec (§4.4) states that
  wrap-around is forbidden and callers guarantee non-overflow, so the
  embedding uses mathematical integers.
* `HashMap`s are modelled as association lists with unique keys,
  `HashSet`s as duplicate-free lists, and the `VecDeque` window as a list
  whose head is the oldest entry.
* The concurrent code is interpreted sequentially (one operation at a
  time); atomics and locks then reduce to plain state passing.  In
  `apply_timestamp` the `HashMap` iteration order over `pending` is the
  list order of the model.
-/

set_option linter.unusedVariables false

abbrev PublicKey := Nat
abbrev Signature := Nat
abbrev Hash := Nat
abbrev DateTimeUtc := Nat

/-- From `payment_plan.rs`: a payment of `tokens` to account `to` (spelled `to_`, a Lean keyword). -/
structure Payment where
  tokens : Int
  to_ : PublicKey
deriving DecidableEq, Repr

/-- From `payment_plan.rs`: a witness event. -/
inductive Witness where
  | Timestamp (t : DateTimeUtc)
  | Signature (k : PublicKey)
deriving DecidableEq, Repr

/-- Modelled from the spec: the module `budget` is declared in `lib.rs` but
`budget.rs` is not among the provided source files.  `Condition` follows
§3 of the spec: `Timestamp(t)` or `Signature(k)`. -/
inductive Condition where
  | Timestamp (t : DateTimeUtc)
  | Signature (k : PublicKey)
deriving DecidableEq, Repr

/-- Modelled from the spec: the Budget plan language (§3), a sum of the
three shapes `Pay`, `After` and `Race`. -/
inductive Budget where
  | Pay (p : Payment)
  | After (c : Condition) (p : Payment)
  | Race (a : Condition × Payment) (b : Condition × Payment)
deriving DecidableEq, Repr

/-- Modelled from the spec (§4.1): `Timestamp(t)` is satisfied by
`Witness::Timestamp(now)` iff `now ≥ t`; `Signature(k)` is satisfied by
`Witness::Signature(k′)` iff `k′ == k`. -/
def Condition.is_satisfied_by : Condition → Witness → Bool
  | .Timestamp t, .Timestamp now => decide (t ≤ now)
  | .Signature k, .Signature k2 => decide (k2 = k)
  | _, _ => false

/-- Modelled from the spec (§4.1): `final_payment` returns `Some(p)` iff
the plan is the literal `Pay(p)`. -/
def Budget.final_payment : Budget → Option Payment
  | .Pay p => some p
  | _ => none

/-- Modelled from the spec (§4.1): every terminal payment must spend
exactly `spendable`. -/
def Budget.verify : Budget → Int → Bool
  | .Pay p, s => decide (p.tokens = s)
  | .After _ p, s => decide (p.tokens = s)
  | .Race (_, p1) (_, p2), s => decide (p1.tokens = s) && decide (p2.tokens = s)

/-- Modelled from the spec (§4.1): reduce the plan under a witness;
first-match wins for `Race`. -/
def Budget.apply_witness : Budget → Witness → Budget
  | .Pay p, _ => .Pay p
  | .After c p, w => if c.is_satisfied_by w then .Pay p else .After c p
  | .Race (c1, p1) (c2, p2), w =>
      if c1.is_satisfied_by w then .Pay p1
      else if c2.is_satisfied_by w then .Pay p2
      else .Race (c1, p1) (c2, p2)

/-- From `transaction.rs`: `Plan` wraps the Budget DSL in a single-arm enum. -/
inductive Plan where
  | Budget (b : Budget)
deriving DecidableEq, Repr

def Plan.final_payment : Plan → Option Payment
  | .Budget b => b.final_payment

def Plan.verify : Plan → Int → Bool
  | .Budget b, s => b.verify s

def Plan.apply_witness : Plan → Witness → Plan
  | .Budget b, w => .Budget (b.apply_witness w)

/-- From `transaction.rs`: a contract pairs debited tokens with a plan. -/
structure Contract where
  tokens : Int
  plan : Plan
deriving DecidableEq, Repr

/-- From `transaction.rs`. -/
inductive Instruction where
  | NewContract (c : Contract)
  | ApplyTimestamp (dt : DateTimeUtc)
  | ApplySignature (s : Signature)
deriving DecidableEq, Repr

/-- From `transaction.rs`.  The field `from` is spelled `from_` because
`from` is a Lean keyword. -/
structure Transaction where
  sig : Signature
  from_ : PublicKey
  instruction : Instruction
  last_id : Hash
  fee : Int
deriving DecidableEq, Repr

/-- From `transaction.rs`, `Transaction::verify_plan`. -/
def Transaction.verify_plan (tx : Transaction) : Bool :=
  match tx.instruction with
  | .NewContract c =>
      decide (0 ≤ tx.fee) && decide (tx.fee ≤ c.tokens) &&
        c.plan.verify (c.tokens - tx.fee)
  | _ => true

/-- From `bank.rs`: the error taxonomy (the `DuplicateSiganture` spelling
is the source's). -/
inductive BankError where
  | AccountNotFound (k : PublicKey)
  | InsufficientFunds (k : PublicKey)
  | DuplicateSiganture (s : Signature)
  | LastIdNotFound (h : Hash)
  | NegativeTokens
deriving DecidableEq, Repr

/-- Decidable equality for `Except`, used to evaluate window operations on
concrete inputs. -/
instance {e a : Type} [DecidableEq e] [DecidableEq a] : DecidableEq (Except e a) := fun x y =>
  match x, y with
  | .ok u, .ok v =>
    if h : u = v then .isTrue (by rw [h]) else .isFalse (by intro hh; cases hh; exact h rfl)
  | .error u, .error v =>
    if h : u = v then .isTrue (by rw [h]) else .isFalse (by intro hh; cases hh; exact h rfl)
  | .ok _, .error _ => .isFalse (by intro hh; cases hh)
  | .error _, .ok _ => .isFalse (by intro hh; cases hh)

/-- From `bank.rs`: `pub const MAX_ENTRY_IDS: usize = 1024 * 4`. -/
def MAX_ENTRY_IDS : Nat := 1024 * 4

abbrev Balances := List (PublicKey × Int)
abbrev SigSet := List Signature
abbrev LastIds := List (Hash × SigSet)
abbrev Pending := List (Signature × Plan)

/-- From `bank.rs`: the `Bank` state. -/
structure Bank where
  balances : Balances
  pending : Pending
  last_ids : LastIds
  time_sources : List PublicKey
  last_time : DateTimeUtc
  transaction_count : Nat
deriving DecidableEq, Repr

/-- Association-list lookup (model of `HashMap::get`). -/
def lookupKey {α : Type} (k : Nat) : List (Nat × α) → Option α
  | [] => none
  | kv :: rest => if kv.1 = k then some kv.2 else lookupKey k rest

/-- Model of `HashSet::insert` on a duplicate-free list. -/
def insertSet (k : Nat) (l : List Nat) : List Nat :=
  if k ∈ l then l else k :: l

/-- From `bank.rs`, `Bank::apply_payment`: add `p.tokens` to the balance
of `p.to_`, inserting the key with initial value `p.tokens` if absent. -/
def apply_payment (bals : Balances) (p : Payment) : Balances :=
  if (lookupKey p.to_ bals).isSome then
    bals.map fun kv => if kv.1 = p.to_ then (kv.1, kv.2 + p.tokens) else kv
  else
    bals ++ [(p.to_, p.tokens)]

/-- From `bank.rs`, `Bank::new_from_deposit`. -/
def new_from_deposit (deposit : Payment) : Bank :=
  { balances := apply_payment [] deposit
    pending := []
    last_ids := []
    time_sources := []
    last_time := 0
    transaction_count := 0 }

/-- The reverse scan of `reserve_signature_with_last_id`, acting on the
reversed window (head = newest entry): find the first entry bearing
`last_id`; fail `LastIdNotFound` if absent, `DuplicateSiganture` if `sig`
is already in its sig-set, otherwise insert `sig`. -/
def reserveInRev (sig last_id : Nat) : List (Hash × SigSet) →
    Except BankError (List (Hash × SigSet))
  | [] => .error (.LastIdNotFound last_id)
  | (h, sigs) :: rest =>
    if h = last_id then
      if sig ∈ sigs then .error (.DuplicateSiganture sig)
      else .ok ((h, sig :: sigs) :: rest)
    else
      match reserveInRev sig last_id rest with
      | .error e => .error e
      | .ok rest' => .ok ((h, sigs) :: rest')

/-- From `bank.rs`, `Bank::reserve_signature_with_last_id` composed with
`Bank::reserve_signature`: the window is scanned newest-first. -/
def reserve_signature_with_last_id (lids : LastIds) (sig last_id : Nat) :
    Except BankError LastIds :=
  match reserveInRev sig last_id lids.reverse with
  | .error e => .error e
  | .ok r => .ok r.reverse

/-- The reverse scan of `forget_signature_with_last_id`: remove `sig` from
the sig-set of the newest entry bearing `last_id`, if any. -/
def forgetInRev (sig last_id : Nat) : List (Hash × SigSet) → List (Hash × SigSet)
  | [] => []
  | (h, sigs) :: rest =>
    if h = last_id then (h, sigs.filter fun x => x ≠ sig) :: rest
    else (h, sigs) :: forgetInRev sig last_id rest

/-- From `bank.rs`, `Bank::forget_signature_with_last_id` composed with
`Bank::forget_signature`. -/
def forget_signature_with_last_id (lids : LastIds) (sig last_id : Nat) : LastIds :=
  (forgetInRev sig last_id lids.reverse).reverse

/-- From `bank.rs`, `Bank::register_entry_id`: pop the oldest entry when
the window is at capacity, then append a fresh entry. -/
def register_entry_id (lids : LastIds) (h : Hash) : LastIds :=
  (if MAX_ENTRY_IDS ≤ lids.length then lids.tail else lids) ++ [(h, [])]

/-- Whether the `NegativeTokens` guard of `apply_debits` fires. -/
def negTokens (tx : Transaction) : Bool :=
  match tx.instruction with
  | .NewContract c => decide (c.tokens < 0)
  | _ => false

/-- Subtract `t` tokens from the balance of `k` (the `compare_exchange`
of `apply_debits`, which always succeeds in the sequential model). -/
def debitBal (bals : Balances) (k : PublicKey) (t : Int) : Balances :=
  bals.map fun kv => if kv.1 = k then (kv.1, kv.2 - t) else kv

/-- From `bank.rs`, `Bank::apply_debits`.  The returned `Bank` is the
state after the call (the Rust code mutates `self` in place), paired with
the error, if any.  On `InsufficientFunds` the state reflects the
reservation followed by its rollback, exactly as in the source. -/
def apply_debits (b : Bank) (tx : Transaction) : Bank × Option BankError :=
  if negTokens tx then (b, some .NegativeTokens)
  else
    match lookupKey tx.from_ b.balances with
    | none => (b, some (.AccountNotFound tx.from_))
    | some bal =>
      match reserve_signature_with_last_id b.last_ids tx.sig tx.last_id with
      | .error e => (b, some e)
      | .ok lids =>
        match tx.instruction with
        | .NewContract c =>
          if bal < c.tokens then
            ({ b with last_ids := forget_signature_with_last_id lids tx.sig tx.last_id },
             some (.InsufficientFunds tx.from_))
          else
            ({ b with
                last_ids := lids
                balances := debitBal b.balances tx.from_ c.tokens
                transaction_count := b.transaction_count + 1 }, none)
        | _ =>
          ({ b with
              last_ids := lids
              transaction_count := b.transaction_count + 1 }, none)

/-- Model of `HashMap::insert` on the pending table: replace the value if
the key is present, otherwise append. -/
def insertPending (l : Pending) (s : Signature) (pl : Plan) : Pending :=
  if (lookupKey s l).isSome then
    l.map fun sp => if sp.1 = s then (sp.1, pl) else sp
  else l ++ [(s, pl)]

/-- The in-place witness application over the whole pending table
(the sweep loop of `apply_timestamp`). -/
def sweepPend (w : Witness) (l : Pending) : Pending :=
  l.map fun sp => (sp.1, sp.2.apply_witness w)

/-- The payments produced by the entries of `l` that are now final. -/
def sweepPayments (l : Pending) : List Payment :=
  l.filterMap fun sp => sp.2.final_payment

/-- The entries of `l` that are not final (those kept by the sweep). -/
def sweepRemaining (l : Pending) : Pending :=
  l.filter fun sp => (sp.2.final_payment).isNone

/-- From `bank.rs`, `Bank::apply_signature` (the `Result` it returns is
always `Ok(())`, so the model returns the state alone): if `tx_sig` is
pending, apply the signature witness; pay out and remove the entry if the
plan became final, otherwise keep the reduced plan. -/
def apply_signature (b : Bank) (from_ : PublicKey) (tx_sig : Signature) : Bank :=
  match lookupKey tx_sig b.pending with
  | none => b
  | some plan =>
    let plan' := plan.apply_witness (Witness.Signature from_)
    match plan'.final_payment with
    | some payment =>
        { b with
            balances := apply_payment b.balances payment
            pending := b.pending.filter fun sp => sp.1 ≠ tx_sig }
    | none =>
        { b with pending := b.pending.map fun sp => if sp.1 = tx_sig then (sp.1, plan') else sp }

/-- From `bank.rs`, `Bank::apply_timestamp` (always `Ok(())`): genesis
trust on the first-ever timestamp, silent return for untrusted senders,
monotone clock advance, then the sweep of the pending table under
`Witness::Timestamp(last_time)`. -/
def apply_timestamp (b : Bank) (from_ : PublicKey) (dt : DateTimeUtc) : Bank :=
  let srcs := if b.last_time = 0 then insertSet from_ b.time_sources else b.time_sources
  if from_ ∈ srcs then
    let lt := if b.last_time < dt then dt else b.last_time
    let stepped := sweepPend (Witness.Timestamp lt) b.pending
    { b with
        time_sources := srcs
        last_time := lt
        balances := (sweepPayments stepped).foldl apply_payment b.balances
        pending := sweepRemaining stepped }
  else
    { b with time_sources := srcs }

/-- From `bank.rs`, `Bank::apply_credits` (infallible). -/
def apply_credits (b : Bank) (tx : Transaction) : Bank :=
  match tx.instruction with
  | .NewContract c =>
    let plan := c.plan.apply_witness (Witness.Timestamp b.last_time)
    match plan.final_payment with
    | some payment => { b with balances := apply_payment b.balances payment }
    | none => { b with pending := insertPending b.pending tx.sig plan }
  | .ApplyTimestamp dt => apply_timestamp b tx.from_ dt
  | .ApplySignature s => apply_signature b tx.from_ s

/-- From `bank.rs`, `Bank::process_transaction`: debits, then credits. -/
def process_transaction (b : Bank) (tx : Transaction) : Bank × Option BankError :=
  match apply_debits b tx with
  | (b1, none) => (apply_credits b1 tx, none)
  | (b1, some e) => (b1, some e)

/-- The debit wave of `process_transactions`: all debits settle before any
credit, results are collected positionally (`Ok` carries the transaction,
as in the source). -/
def debitWave : Bank → List Transaction → Bank × List (Except BankError Transaction)
  | b, [] => (b, [])
  | b, tx :: rest =>
    let r := apply_debits b tx
    let w := debitWave r.1 rest
    (w.1, (match r.2 with | none => .ok tx | some e => .error e) :: w.2)

/-- The credit wave of `process_transactions`: apply credits for each
successfully debited transaction, preserving positions. -/
def creditWave : Bank → List (Except BankError Transaction) →
    Bank × List (Except BankError Transaction)
  | b, [] => (b, [])
  | b, r :: rest =>
    let b1 := match r with | .ok tx => apply_credits b tx | .error _ => b
    let w := creditWave b1 rest
    (w.1, r :: w.2)

/-- From `bank.rs`, `Bank::process_transactions`: the two-wave batch
pipeline. -/
def process_transactions (b : Bank) (txs : List Transaction) :
    Bank × List (Except BankError Transaction) :=
  let (b1, rs) := debitWave b txs
  creditWave b1 rs

/-- Modelled from the spec: `entry.rs` is not among the provided source
files; `process_entries` only uses an entry's transaction list and its
fingerprint `id` (§4.5). -/
structure Entry where
  transactions : List Transaction
  id : Hash
deriving DecidableEq, Repr

/-- First error of a batch result vector (the `result?` loop of
`process_entries`). -/
def firstErr : List (Except BankError Transaction) → Option BankError
  | [] => none
  | .error e :: _ => some e
  | .ok _ :: rest => firstErr rest

/-- From `bank.rs`, `Bank::process_entries`: process each entry's
transactions, surface the first error (registration and later entries are
then skipped), else register the entry's fingerprint. -/
def process_entries : Bank → List Entry → Bank × Option BankError
  | b, [] => (b, none)
  | b, e :: rest =>
    let r := process_transactions b e.transactions
    match firstErr r.2 with
    | some err => (r.1, some err)
    | none => process_entries { r.1 with last_ids := register_entry_id r.1.last_ids e.id } rest

/-- The public mutating operations of the engine quantified over by the
reachability claims. -/
inductive Op where
  | ptx (t : Transaction)
  | ptxs (ts : List Transaction)
  | pentries (es : List Entry)
  | reg (h : Hash)
deriving DecidableEq, Repr

def applyOp (b : Bank) : Op → Bank
  | .ptx t => (process_transaction b t).1
  | .ptxs ts => (process_transactions b ts).1
  | .pentries es => (process_entries b es).1
  | .reg h => { b with last_ids := register_entry_id b.last_ids h }

def runOps (b : Bank) (ops : List Op) : Bank := ops.foldl applyOp b

/-- Operation alphabet for the conservation claim: `process_transaction`
calls interleaved with `register_entry_id` calls (without at least one
registration no transaction can ever be admitted). -/
inductive TxOp where
  | ptx (t : Transaction)
  | reg (h : Hash)
deriving DecidableEq, Repr

def applyTxOp (b : Bank) : TxOp → Bank
  | .ptx t => (process_transaction b t).1
  | .reg h => { b with last_ids := register_entry_id b.last_ids h }

def runTxOps (b : Bank) (ops : List TxOp) : Bank := ops.foldl applyTxOp b

/-- Sum of all balances in the balance store. -/
def sumBals (l : Balances) : Int := (l.map fun kv => kv.2).sum

/-- Token amount locked in a residual plan: the amount of its first
payment (for plans admitted by `verify_plan` all branches agree). -/
def lockedOf : Plan → Int
  | .Budget (.Pay p) => p.tokens
  | .Budget (.After _ p) => p.tokens
  | .Budget (.Race (_, p1) _) => p1.tokens

/-- Sum of the token amounts locked in the pending table. -/
def sumPending (l : Pending) : Int := (l.map fun sp => lockedOf sp.2).sum

/-- All payments reachable in a plan are non-negative. -/
def planNonneg (p : Plan) : Prop :=
  match p with
  | .Budget (.Pay pay) => 0 ≤ pay.tokens
  | .Budget (.After _ pay) => 0 ≤ pay.tokens
  | .Budget (.Race (_, p1) (_, p2)) => 0 ≤ p1.tokens ∧ 0 ≤ p2.tokens

/-- The invariant behind the no-negative-balances property: balances are
non-negative with duplicate-free keys, and every pending plan can only
pay out non-negative amounts. -/
structure NonNegInv (b : Bank) : Prop where
  bals : ∀ kv ∈ b.balances, 0 ≤ kv.2
  nodup : (b.balances.map Prod.fst).Nodup
  pend : ∀ sp ∈ b.pending, planNonneg sp.2

/-- All transactions processed by a sequence of public operations. -/
def opTxs : List Op → List Transaction
  | [] => []
  | .ptx t :: rest => t :: opTxs rest
  | .ptxs ts :: rest => ts ++ opTxs rest
  | .pentries es :: rest => (es.map Entry.transactions).flatten ++ opTxs rest
  | .reg _ :: rest => opTxs rest

/-- The transactions of a `TxOp` sequence. -/
def txOpTxs : List TxOp → List Transaction
  | [] => []
  | .ptx t :: rest => t :: txOpTxs rest
  | .reg _ :: rest => txOpTxs rest

/-- The signatures carried by a `TxOp` sequence. -/
def txOpSigs (ops : List TxOp) : List Signature :=
  (txOpTxs ops).map fun t => t.sig

/-- The invariant behind the conservation property: the tokens on the
balance store plus the tokens locked in pending plans equal the initial
deposit `D`; keys are duplicate-free; every pending plan verifies against
its own locked amount (so each branch pays exactly that amount); and every
pending key is a signature already used (`U`). -/
structure ConsInv (b : Bank) (D : Int) (U : Nat → Prop) : Prop where
  sum : sumBals b.balances + sumPending b.pending = D
  nodupB : (b.balances.map Prod.fst).Nodup
  nodupP : (b.pending.map Prod.fst).Nodup
  bal : ∀ sp ∈ b.pending, sp.2.verify (lockedOf sp.2) = true
  used : ∀ sp ∈ b.pending, U sp.1

/-! Concrete instances used by the validation examples, witnesses and
counterexamples below. -/

/-- A bank seeded like `Bank::new(&Mint::new(10000))`, with mint key `0`
and mint fingerprint `0`. -/
def mintBank : Bank :=
  { new_from_deposit { tokens := 10000, to_ := 0 } with
      last_ids := register_entry_id [] 0 }

/-- The transaction built by `Transaction::new` (an unconditional
 `Pay` contract with zero fee). -/
def mkTransfer (sig from_ to_ : Nat) (tokens : Int) (last_id : Nat) : Transaction :=
  let plan : Plan := .Budget (.Pay { tokens := tokens, to_ := to_ })
  { sig := sig, from_ := from_, instruction := .NewContract { tokens := tokens, plan := plan },
    last_id := last_id, fee := 0 }

/-- The transaction built by `Transaction::new_on_date` for date `5`,
sender `0`, recipient `1` and one token. -/
def onDateTx (sig : Nat) : Transaction :=
  let plan : Plan := .Budget (.Race (.Timestamp 5, { tokens := 1, to_ := 1 })
    (.Signature 0, { tokens := 1, to_ := 0 }))
  { sig := sig, from_ := 0, instruction := .NewContract { tokens := 1, plan := plan },
    last_id := 0, fee := 0 }

/-- A transaction whose plan pays out a negative amount while debiting
zero tokens; it fails `verify_plan` but `process_transaction` never calls
`verify_plan`. -/
def evilTx : Transaction :=
  let plan : Plan := .Budget (.Pay { tokens := -3, to_ := 1 })
  { sig := 1, from_ := 0, instruction := .NewContract { tokens := 0, plan := plan },
    last_id := 0, fee := 0 }

/-- The transaction built by `Transaction::new_taxed(.., tokens := 2,
fee := 1, ..)`: it passes `verify_plan`, debits 2 tokens and credits only
1 (the fee is not minted anywhere). -/
def taxedTx : Transaction :=
  let plan : Plan := .Budget (.Pay { tokens := 1, to_ := 1 })
  { sig := 1, from_ := 0, instruction := .NewContract { tokens := 2, plan := plan },
    last_id := 0, fee := 1 }

/-! Validation of the embedding against the unit tests of `bank.rs`. -/

example : -- test_bank
  let b1 := (process_transaction mintBank (mkTransfer 1 0 1 1000 0)).1
  let b2 := (process_transaction b1 (mkTransfer 2 0 1 500 0)).1
  lookupKey 1 b2.balances = some 1500 ∧ b2.transaction_count = 2 := by decide

example : -- test_invalid_tokens
  (process_transaction { mintBank with balances := [(0, 1)] } (mkTransfer 1 0 1 (-1) 0)).2
    = some .NegativeTokens := by decide

example : -- test_account_not_found
  (process_transaction mintBank (mkTransfer 1 7 0 1 0)).2 = some (.AccountNotFound 7) := by decide

example : -- test_invalid_transfer
  let b1 := (process_transaction mintBank (mkTransfer 1 0 1 1000 0)).1
  let r := process_transaction b1 (mkTransfer 2 0 1 9001 0)
  r.2 = some (.InsufficientFunds 0) ∧ r.1.transaction_count = 1 ∧
    lookupKey 0 r.1.balances = some 9000 ∧ lookupKey 1 r.1.balances = some 1000 ∧
    r.1 = b1 := by decide

example : -- test_transfer_on_date
  let b0 : Bank := { mintBank with balances := [(0, 1)] }
  let b1 := (process_transaction b0 (onDateTx 1)).1
  let b2 := apply_timestamp b1 0 5
  let b3 := apply_timestamp b2 0 5
  lookupKey 0 b1.balances = some 0 ∧ lookupKey 1 b1.balances = none ∧
    b1.transaction_count = 1 ∧ (lookupKey 1 b1.pending).isSome ∧
    lookupKey 1 b2.balances = some 1 ∧ b2.pending = [] ∧
    lookupKey 1 b3.balances = some 1 := by decide

example : -- test_cancel_transfer
  let b0 : Bank := { mintBank with balances := [(0, 1)] }
  let b1 := (process_transaction b0 (onDateTx 1)).1
  let b2 := apply_signature b1 0 1
  let b3 := apply_signature b2 0 1
  lookupKey 0 b2.balances = some 1 ∧ lookupKey 1 b2.balances = none ∧
    b2.pending = [] ∧ b3 = b2 := by decide

example : -- test_transfer_after_date
  let b0 : Bank := { mintBank with balances := [(0, 1)] }
  let b1 := apply_timestamp b0 0 5
  let b2 := (process_transaction b1 (onDateTx 1)).1
  lookupKey 0 b2.balances = some 0 ∧ lookupKey 1 b2.balances = some 1 ∧
    b2.pending = [] := by decide

example : -- test_duplicate_transaction_signature
  reserve_signature_with_last_id (register_entry_id [] 0) 3 0 = .ok [(0, [3])] ∧
  reserve_signature_with_last_id [(0, [3])] 3 0 = .error (.DuplicateSiganture 3) := by decide

example : -- test_forget_signature
  forget_signature_with_last_id [(0, [3])] 3 0 = [(0, [])] ∧
  (reserve_signature_with_last_id [(0, [])] 3 0).isOk := by decide

example : -- test_debits_before_credits
  let tx0 := mkTransfer 1 0 1 2 0
  let tx1 := mkTransfer 2 1 0 1 0
  let b0 : Bank := { mintBank with balances := [(0, 2)] }
  let r := process_transactions b0 [tx0, tx1]
  (r.2.get? 1).any (fun x => x.isOk = false) ∧ r.1.transaction_count = 1 := by decide

/-! Helper lemmas about the fingerprint window. -/

/-- A successful reverse-scan reservation leaves the signature in the
first matching entry, so an immediate second reservation of the same pair
fails with `DuplicateSiganture`. -/
theorem reserveInRev_again (s fp : Nat) (l r : List (Hash × SigSet))
    (h : reserveInRev s fp l = .ok r) :
    reserveInRev s fp r = .error (.DuplicateSiganture s) := by
  induction l generalizing r with
  | nil => simp [reserveInRev] at h
  | cons hd tl ih =>
    obtain ⟨h1, sigs⟩ := hd
    by_cases hh : h1 = fp
    · subst hh
      by_cases hm : s ∈ sigs
      · simp [reserveInRev, hm] at h
      · simp only [reserveInRev, if_pos rfl, if_neg hm] at h
        cases h
        simp [reserveInRev]
    · simp only [reserveInRev, if_neg hh] at h
      cases heq : reserveInRev s fp tl with
      | error e => rw [heq] at h; cases h
      | ok tl' =>
        rw [heq] at h
        cases h
        simp only [reserveInRev, if_neg hh, ih tl' heq]

/-- Rolling the reservation back restores the window exactly. -/
theorem forgetInRev_reserveInRev (s fp : Nat) (l r : List (Hash × SigSet))
    (h : reserveInRev s fp l = .ok r) :
    forgetInRev s fp r = l := by
  induction l generalizing r with
  | nil => simp [reserveInRev] at h
  | cons hd tl ih =>
    obtain ⟨h1, sigs⟩ := hd
    by_cases hh : h1 = fp
    · subst hh
      by_cases hm : s ∈ sigs
      · simp [reserveInRev, hm] at h
      · simp only [reserveInRev, if_pos rfl, if_neg hm] at h
        cases h
        have hf : (s :: sigs).filter (fun x => x ≠ s) = sigs := by
          rw [List.filter_cons_of_neg]
          · exact List.filter_eq_self.mpr fun a ha => by
              simp only [ne_eq, decide_eq_true_eq]
              exact fun hc => hm (hc ▸ ha)
          · simp
        simp [forgetInRev, hf]
        exact fun a ha hc => hm (hc ▸ ha)
    · simp only [reserveInRev, if_neg hh] at h
      cases heq : reserveInRev s fp tl with
      | error e => rw [heq] at h; cases h
      | ok tl' =>
        rw [heq] at h
        cases h
        simp only [forgetInRev, if_neg hh, ih tl' heq]

/-- Bank-level version of `forgetInRev_reserveInRev`. -/
theorem forget_after_reserve (lids lids' : LastIds) (s fp : Nat)
    (h : reserve_signature_with_last_id lids s fp = .ok lids') :
    forget_signature_with_last_id lids' s fp = lids := by
  unfold reserve_signature_with_last_id at h
  cases heq : reserveInRev s fp lids.reverse with
  | error e => rw [heq] at h; cases h
  | ok r =>
    rw [heq] at h
    cases h
    unfold forget_signature_with_last_id
    rw [List.reverse_reverse, forgetInRev_reserveInRev s fp lids.reverse r heq,
      List.reverse_reverse]

/-- On any error, `apply_debits` leaves the bank state unchanged. -/
theorem apply_debits_none_or_id (b : Bank) (tx : Transaction) :
    (apply_debits b tx).2 = none ∨ (apply_debits b tx).1 = b := by
  unfold apply_debits
  split
  · exact Or.inr rfl
  split
  · exact Or.inr rfl
  next bal hlook =>
  split
  · exact Or.inr rfl
  next lids hres =>
  split
  next c hinstr =>
    split
    · next hlt =>
      have hforget : forget_signature_with_last_id lids tx.sig tx.last_id = b.last_ids :=
        forget_after_reserve _ _ _ _ hres
      exact Or.inr (by rw [hforget])
    · exact Or.inl rfl
  next hinstr => exact Or.inl rfl

/-- Unfolding equation of `process_transaction` on a successful debit. -/
theorem process_transaction_ok (b b1 : Bank) (tx : Transaction)
    (hd : apply_debits b tx = (b1, none)) :
    process_transaction b tx = (apply_credits b1 tx, none) := by
  unfold process_transaction
  rw [hd]

/-- Unfolding equation of `process_transaction` on a failed debit. -/
theorem process_transaction_err (b b1 : Bank) (tx : Transaction) (e : BankError)
    (hd : apply_debits b tx = (b1, some e)) :
    process_transaction b tx = (b1, some e) := by
  unfold process_transaction
  rw [hd]

/-! Claim C5. -/

/-- C5: `verify_plan` returns true iff, when the instruction is
`NewContract(c)`, `fee ≥ 0`, `fee ≤ c.tokens` and
`c.plan.verify (c.tokens - fee)` hold; for the witness instructions
`ApplyTimestamp` and `ApplySignature` it is trivially true. -/
theorem c5_verify_plan_iff (tx : Transaction) :
    tx.verify_plan = true ↔
      (match tx.instruction with
       | .NewContract c =>
           0 ≤ tx.fee ∧ tx.fee ≤ c.tokens ∧ c.plan.verify (c.tokens - tx.fee) = true
       | .ApplyTimestamp _ => True
       | .ApplySignature _ => True) := by
  unfold Transaction.verify_plan
  cases htx : tx.instruction with
  | NewContract c => simp [and_assoc]
  | ApplyTimestamp dt => simp
  | ApplySignature s => simp

/-! Claim C9. -/

/-- C9: a signature witness on a signature absent from the pending table
succeeds (the source returns `Ok(())` unconditionally) and leaves every
component of the engine state unchanged. -/
theorem c9_absent_signature_noop (b : Bank) (from_ : PublicKey) (s : Signature)
    (h : lookupKey s b.pending = none) :
    apply_signature b from_ s = b := by
  unfold apply_signature
  rw [h]

/-- C9 witness: a concrete bank whose pending table does not contain
signature `3`. -/
theorem c9_witness :
    lookupKey 3 mintBank.pending = none ∧ apply_signature mintBank 0 3 = mintBank :=
  ⟨rfl, c9_absent_signature_noop mintBank 0 3 rfl⟩

/-! Claim C10. -/

/-- C10: `reserve_signature_with_last_id` consults only the sig-set of the
newest window entry bearing the fingerprint: after a signature `s` has
been admitted against `fp`, registering `fp` a second time makes a new
reservation of `s` against `fp` succeed instead of failing with
`DuplicateSiganture`. -/
theorem c10_reregistration_reopens (w w' : LastIds) (s fp : Nat)
    (h : reserve_signature_with_last_id w s fp = .ok w') :
    ∃ w2, reserve_signature_with_last_id (register_entry_id w' fp) s fp = .ok w2 := by
  unfold reserve_signature_with_last_id register_entry_id
  rw [List.reverse_append]
  simp [reserveInRev]

/-- C10 witness: signature `3` admitted against fingerprint `7`, then `7`
registered again. -/
theorem c10_witness :
    reserve_signature_with_last_id [(7, [])] 3 7 = .ok [(7, [3])] ∧
    ∃ w2, reserve_signature_with_last_id (register_entry_id [(7, [3])] 7) 3 7 = .ok w2 :=
  ⟨by decide, c10_reregistration_reopens [(7, [])] [(7, [3])] 3 7 (by decide)⟩

/-! Claim C2 (corrected). -/

/-- C2 counterexample: signature `3` is admitted against fingerprint `7`
(`reserve_signature_with_last_id` returns `Ok`), then `7` is registered
again; a later admission of `3` against `7` does not fail with
`DuplicateSiganture` (it succeeds), refuting the claim that every later
admission fails. -/
theorem c2_counterexample :
    reserve_signature_with_last_id [(7, [])] 3 7 = .ok [(7, [3])] ∧
    reserve_signature_with_last_id (register_entry_id [(7, [3])] 7) 3 7 ≠
      .error (.DuplicateSiganture 3) := by
  constructor
  · decide
  · decide

/-- C2 amended: once a signature `s` has been admitted against `fp`, a
second admission of `s` against `fp` fails with `DuplicateSiganture` as
long as the window still holds that reservation — in particular in the
state produced by the first admission. -/
theorem c2_second_admission_fails (w w' : LastIds) (s fp : Nat)
    (h : reserve_signature_with_last_id w s fp = .ok w') :
    reserve_signature_with_last_id w' s fp = .error (.DuplicateSiganture s) := by
  unfold reserve_signature_with_last_id at h ⊢
  cases heq : reserveInRev s fp w.reverse with
  | error e => rw [heq] at h; cases h
  | ok r =>
    rw [heq] at h
    cases h
    rw [List.reverse_reverse, reserveInRev_again s fp w.reverse r heq]

/-- C2 witness: a second admission straight after the first fails with
`DuplicateSiganture`. -/
theorem c2_witness :
    reserve_signature_with_last_id [(9, [])] 4 9 = .ok [(9, [4])] ∧
    reserve_signature_with_last_id [(9, [4])] 4 9 = .error (.DuplicateSiganture 4) :=
  ⟨by decide, c2_second_admission_fails [(9, [])] [(9, [4])] 4 9 (by decide)⟩

/-! Claim C3. -/

/-- C3: whenever `process_transaction` returns an error, the entire engine
state (balances, pending table, fingerprint window with its sig-sets,
transaction count, clock, time sources) equals the state before the call;
on `InsufficientFunds` the reservation is rolled back by
`forget_signature_with_last_id`, and on `DuplicateSiganture` no
reservation was made. -/
theorem c3_error_leaves_state (b : Bank) (tx : Transaction) (e : BankError)
    (h : (process_transaction b tx).2 = some e) :
    (process_transaction b tx).1 = b := by
  rcases hd : apply_debits b tx with ⟨b1, e1⟩
  cases e1 with
  | none =>
    rw [process_transaction_ok b b1 tx hd] at h
    simp at h
  | some e2 =>
    rw [process_transaction_err b b1 tx e2 hd]
    have hid := apply_debits_none_or_id b tx
    rw [hd] at hid
    simpa using hid

/-- C3 witness: an `InsufficientFunds` rejection (which internally reserves
and then forgets the signature) leaves the concrete bank unchanged. -/
theorem c3_witness :
    (process_transaction mintBank (mkTransfer 1 0 1 20000 0)).2 =
      some (.InsufficientFunds 0) ∧
    (process_transaction mintBank (mkTransfer 1 0 1 20000 0)).1 = mintBank :=
  ⟨by decide, c3_error_leaves_state mintBank (mkTransfer 1 0 1 20000 0)
    (.InsufficientFunds 0) (by decide)⟩

/-! Claim C8: clock monotonicity helpers. -/

/-- `apply_debits` never touches the pending table, the clock or the time
sources. -/
theorem apply_debits_frame (b : Bank) (tx : Transaction) :
    (apply_debits b tx).1.pending = b.pending ∧
    (apply_debits b tx).1.last_time = b.last_time ∧
    (apply_debits b tx).1.time_sources = b.time_sources := by
  unfold apply_debits
  split
  · exact ⟨rfl, rfl, rfl⟩
  · split
    · exact ⟨rfl, rfl, rfl⟩
    · split
      · exact ⟨rfl, rfl, rfl⟩
      · split
        · split
          · exact ⟨rfl, rfl, rfl⟩
          · exact ⟨rfl, rfl, rfl⟩
        · exact ⟨rfl, rfl, rfl⟩

/-- Exact description of the clock after `apply_timestamp`: it becomes `t`
iff the sender is a time source (after the genesis-trust insertion) and
`t` is strictly greater; otherwise it is unchanged. -/
theorem apply_timestamp_clock (b : Bank) (f : PublicKey) (t : DateTimeUtc) :
    (apply_timestamp b f t).last_time =
      if f ∈ (if b.last_time = 0 then insertSet f b.time_sources else b.time_sources) ∧
          b.last_time < t
        then t else b.last_time := by
  unfold apply_timestamp
  set srcs := if b.last_time = 0 then insertSet f b.time_sources else b.time_sources with hsrcs
  by_cases hmem : f ∈ srcs
  · rw [if_pos hmem]
    dsimp only
    by_cases hlt : b.last_time < t
    · rw [if_pos hlt, if_pos (show f ∈ srcs ∧ b.last_time < t from ⟨hmem, hlt⟩)]
    · rw [if_neg hlt, if_neg (show ¬(f ∈ srcs ∧ b.last_time < t) from fun hc => hlt hc.2)]
  · rw [if_neg hmem]
    dsimp only
    rw [if_neg (show ¬(f ∈ srcs ∧ b.last_time < t) from fun hc => hmem hc.1)]

/-- The clock never decreases in `apply_timestamp`. -/
theorem apply_timestamp_clock_mono (b : Bank) (f : PublicKey) (t : DateTimeUtc) :
    b.last_time ≤ (apply_timestamp b f t).last_time := by
  rw [apply_timestamp_clock]
  by_cases hc : f ∈ (if b.last_time = 0 then insertSet f b.time_sources else b.time_sources) ∧
      b.last_time < t
  · rw [if_pos hc]
    exact le_of_lt hc.2
  · rw [if_neg hc]

/-- `apply_signature` never touches the clock, the time sources or the
window. -/
theorem apply_signature_frame (b : Bank) (f : PublicKey) (s : Signature) :
    (apply_signature b f s).last_time = b.last_time ∧
    (apply_signature b f s).time_sources = b.time_sources ∧
    (apply_signature b f s).last_ids = b.last_ids ∧
    (apply_signature b f s).transaction_count = b.transaction_count := by
  unfold apply_signature
  split
  · exact ⟨rfl, rfl, rfl, rfl⟩
  · dsimp only
    split
    · exact ⟨rfl, rfl, rfl, rfl⟩
    · exact ⟨rfl, rfl, rfl, rfl⟩

/-- The clock never decreases in `apply_credits`. -/
theorem apply_credits_clock_mono (b : Bank) (tx : Transaction) :
    b.last_time ≤ (apply_credits b tx).last_time := by
  unfold apply_credits
  cases hinstr : tx.instruction with
  | NewContract c =>
    dsimp only
    split
    · exact le_rfl
    · exact le_rfl
  | ApplyTimestamp dt => exact apply_timestamp_clock_mono b tx.from_ dt
  | ApplySignature s => exact le_of_eq (apply_signature_frame b tx.from_ s).1.symm

/-- The clock never decreases in `process_transaction`. -/
theorem process_transaction_clock_mono (b : Bank) (tx : Transaction) :
    b.last_time ≤ (process_transaction b tx).1.last_time := by
  rcases hd : apply_debits b tx with ⟨b1, e1⟩
  have hdt : b1.last_time = b.last_time := by
    have h1 := (apply_debits_frame b tx).2.1
    rw [hd] at h1
    exact h1
  cases e1 with
  | none =>
    rw [process_transaction_ok b b1 tx hd]
    exact hdt ▸ apply_credits_clock_mono b1 tx
  | some e2 =>
    rw [process_transaction_err b b1 tx e2 hd]
    exact le_of_eq hdt.symm

/-- The debit wave preserves the clock. -/
theorem debitWave_clock (txs : List Transaction) (b : Bank) :
    (debitWave b txs).1.last_time = b.last_time := by
  induction txs generalizing b with
  | nil => rfl
  | cons tx rest ih =>
    show (debitWave (apply_debits b tx).1 rest).1.last_time = b.last_time
    rw [ih (apply_debits b tx).1, (apply_debits_frame b tx).2.1]

/-- The clock never decreases in the credit wave. -/
theorem creditWave_clock_mono (rs : List (Except BankError Transaction)) (b : Bank) :
    b.last_time ≤ (creditWave b rs).1.last_time := by
  induction rs generalizing b with
  | nil => exact le_rfl
  | cons r rest ih =>
    show b.last_time ≤
      (creditWave (match r with | .ok tx => apply_credits b tx | .error _ => b) rest).1.last_time
    cases r with
    | ok tx => exact le_trans (apply_credits_clock_mono b tx) (ih _)
    | error e => exact ih b

/-- The clock never decreases in `process_transactions`. -/
theorem process_transactions_clock_mono (ts : List Transaction) (b : Bank) :
    b.last_time ≤ (process_transactions b ts).1.last_time := by
  show b.last_time ≤ (creditWave (debitWave b ts).1 (debitWave b ts).2).1.last_time
  calc b.last_time = (debitWave b ts).1.last_time := (debitWave_clock ts b).symm
    _ ≤ _ := creditWave_clock_mono _ _

/-- The clock never decreases in `process_entries`. -/
theorem process_entries_clock_mono (es : List Entry) (b : Bank) :
    b.last_time ≤ (process_entries b es).1.last_time := by
  induction es generalizing b with
  | nil => exact le_rfl
  | cons e rest ih =>
    unfold process_entries
    dsimp only
    split
    · exact process_transactions_clock_mono e.transactions b
    · exact le_trans (process_transactions_clock_mono e.transactions b)
        (ih { (process_transactions b e.transactions).1 with
                last_ids := register_entry_id (process_transactions b e.transactions).1.last_ids e.id })

/-- The clock never decreases under a single public operation. -/
theorem applyOp_clock_mono (b : Bank) (op : Op) :
    b.last_time ≤ (applyOp b op).last_time := by
  cases op with
  | ptx t => exact process_transaction_clock_mono b t
  | ptxs ts => exact process_transactions_clock_mono ts b
  | pentries es => exact process_entries_clock_mono es b
  | reg h => exact le_rfl

/-- The clock never decreases under any sequence of public operations. -/
theorem runOps_clock_mono (ops : List Op) (b : Bank) :
    b.last_time ≤ (runOps b ops).last_time := by
  induction ops generalizing b with
  | nil => exact le_rfl
  | cons op rest ih =>
    exact le_trans (applyOp_clock_mono b op) (ih (applyOp b op))

/-! Claim C8. -/

/-- C8: the engine clock never decreases across any sequence of
operations, and `apply_timestamp(from, t)` sets the clock to `t` exactly
when the sender is a trusted time source (after the genesis-trust rule
installs the first-ever sender when the clock is still zero) and `t` is
strictly greater than the current clock; for smaller or equal `t` and for
untrusted senders the clock is unchanged. -/
theorem c8_clock_monotonicity :
    (∀ (b : Bank) (ops : List Op), b.last_time ≤ (runOps b ops).last_time) ∧
    (∀ (b : Bank) (f : PublicKey) (t : DateTimeUtc),
      (apply_timestamp b f t).last_time =
        if f ∈ (if b.last_time = 0 then insertSet f b.time_sources else b.time_sources) ∧
            b.last_time < t
          then t else b.last_time) :=
  ⟨fun b ops => runOps_clock_mono ops b, apply_timestamp_clock⟩

/-! Claim C7: window-size helpers. -/

/-- A successful reservation preserves the window length. -/
theorem reserveInRev_ok_length {s fp : Nat} {l r : List (Hash × SigSet)}
    (h : reserveInRev s fp l = .ok r) : r.length = l.length := by
  induction l generalizing r with
  | nil => simp [reserveInRev] at h
  | cons hd tl ih =>
    obtain ⟨h1, sigs⟩ := hd
    by_cases hh : h1 = fp
    · subst hh
      by_cases hm : s ∈ sigs
      · simp [reserveInRev, hm] at h
      · simp only [reserveInRev, if_pos rfl, if_neg hm] at h
        cases h
        simp
    · simp only [reserveInRev, if_neg hh] at h
      cases heq : reserveInRev s fp tl with
      | error e => rw [heq] at h; cases h
      | ok tl' =>
        rw [heq] at h
        cases h
        simp [ih heq]

/-- Bank-level version of `reserveInRev_ok_length`. -/
theorem reserve_ok_length {lids lids' : LastIds} {s fp : Nat}
    (h : reserve_signature_with_last_id lids s fp = .ok lids') :
    lids'.length = lids.length := by
  unfold reserve_signature_with_last_id at h
  cases heq : reserveInRev s fp lids.reverse with
  | error e => rw [heq] at h; cases h
  | ok r =>
    rw [heq] at h
    cases h
    have h2 := reserveInRev_ok_length heq
    simpa using h2

/-- Forgetting a signature preserves the window length. -/
theorem forgetInRev_length (s fp : Nat) (l : List (Hash × SigSet)) :
    (forgetInRev s fp l).length = l.length := by
  induction l with
  | nil => rfl
  | cons hd tl ih =>
    obtain ⟨h1, sigs⟩ := hd
    by_cases hh : h1 = fp
    · simp [forgetInRev, hh]
    · simp [forgetInRev, hh, ih]

/-- Bank-level version of `forgetInRev_length`. -/
theorem forget_length (lids : LastIds) (s fp : Nat) :
    (forget_signature_with_last_id lids s fp).length = lids.length := by
  unfold forget_signature_with_last_id
  simp [forgetInRev_length]

/-- `apply_debits` preserves the window length. -/
theorem apply_debits_window_length (b : Bank) (tx : Transaction) :
    (apply_debits b tx).1.last_ids.length = b.last_ids.length := by
  unfold apply_debits
  split
  · rfl
  · split
    · rfl
    · split
      · rfl
      · next lids hres =>
        have hlen : lids.length = b.last_ids.length := reserve_ok_length hres
        split
        · split
          · simpa [forget_length] using hlen
          · simpa using hlen
        · simpa using hlen

/-- `apply_timestamp` never touches the window or the transaction count. -/
theorem apply_timestamp_frame (b : Bank) (f : PublicKey) (t : DateTimeUtc) :
    (apply_timestamp b f t).last_ids = b.last_ids ∧
    (apply_timestamp b f t).transaction_count = b.transaction_count := by
  unfold apply_timestamp
  dsimp only
  by_cases hm : f ∈ (if b.last_time = 0 then insertSet f b.time_sources else b.time_sources)
  · rw [if_pos hm]
    exact ⟨rfl, rfl⟩
  · rw [if_neg hm]
    exact ⟨rfl, rfl⟩

/-- `apply_credits` never touches the window. -/
theorem apply_credits_window (b : Bank) (tx : Transaction) :
    (apply_credits b tx).last_ids = b.last_ids := by
  unfold apply_credits
  cases hinstr : tx.instruction with
  | NewContract c =>
    dsimp only
    split
    · rfl
    · rfl
  | ApplyTimestamp dt => exact (apply_timestamp_frame b tx.from_ dt).1
  | ApplySignature s => exact (apply_signature_frame b tx.from_ s).2.2.1

/-- `process_transaction` preserves the window length. -/
theorem process_transaction_window_length (b : Bank) (tx : Transaction) :
    (process_transaction b tx).1.last_ids.length = b.last_ids.length := by
  rcases hd : apply_debits b tx with ⟨b1, e1⟩
  have h1 : b1.last_ids.length = b.last_ids.length := by
    have h2 := apply_debits_window_length b tx
    rw [hd] at h2
    exact h2
  cases e1 with
  | none =>
    rw [process_transaction_ok b b1 tx hd]
    show (apply_credits b1 tx).last_ids.length = b.last_ids.length
    rw [apply_credits_window, h1]
  | some e2 =>
    rw [process_transaction_err b b1 tx e2 hd]
    exact h1

/-- The debit wave preserves the window length. -/
theorem debitWave_window_length (txs : List Transaction) (b : Bank) :
    (debitWave b txs).1.last_ids.length = b.last_ids.length := by
  induction txs generalizing b with
  | nil => rfl
  | cons tx rest ih =>
    show (debitWave (apply_debits b tx).1 rest).1.last_ids.length = b.last_ids.length
    rw [ih (apply_debits b tx).1, apply_debits_window_length]

/-- The credit wave preserves the window length. -/
theorem creditWave_window_length (rs : List (Except BankError Transaction)) (b : Bank) :
    (creditWave b rs).1.last_ids.length = b.last_ids.length := by
  induction rs generalizing b with
  | nil => rfl
  | cons r rest ih =>
    show (creditWave (match r with | .ok tx => apply_credits b tx | .error _ => b)
      rest).1.last_ids.length = b.last_ids.length
    cases r with
    | ok tx => rw [ih (apply_credits b tx), apply_credits_window]
    | error e => exact ih b

/-- `process_transactions` preserves the window length. -/
theorem process_transactions_window_length (ts : List Transaction) (b : Bank) :
    (process_transactions b ts).1.last_ids.length = b.last_ids.length := by
  show (creditWave (debitWave b ts).1 (debitWave b ts).2).1.last_ids.length = _
  rw [creditWave_window_length, debitWave_window_length]

/-- Registration keeps the window within its bound. -/
theorem register_entry_id_length_le (l : LastIds) (h : Hash)
    (hl : l.length ≤ MAX_ENTRY_IDS) :
    (register_entry_id l h).length ≤ MAX_ENTRY_IDS := by
  have hM : 0 < MAX_ENTRY_IDS := by decide
  unfold register_entry_id
  split
  · next hge =>
    simp only [List.length_append, List.length_tail, List.length_cons, List.length_nil]
    omega
  · next hlt =>
    simp only [List.length_append, List.length_cons, List.length_nil]
    omega

/-- `process_entries` keeps the window within its bound. -/
theorem process_entries_window_le (es : List Entry) (b : Bank)
    (hb : b.last_ids.length ≤ MAX_ENTRY_IDS) :
    (process_entries b es).1.last_ids.length ≤ MAX_ENTRY_IDS := by
  induction es generalizing b with
  | nil => exact hb
  | cons e rest ih =>
    unfold process_entries
    dsimp only
    split
    · show (process_transactions b e.transactions).1.last_ids.length ≤ MAX_ENTRY_IDS
      rw [process_transactions_window_length]
      exact hb
    · refine ih _ ?_
      show (register_entry_id (process_transactions b e.transactions).1.last_ids e.id).length ≤ _
      refine register_entry_id_length_le _ _ ?_
      rw [process_transactions_window_length]
      exact hb

/-- Every public operation keeps the window within its bound. -/
theorem applyOp_window_le (b : Bank) (op : Op) (hb : b.last_ids.length ≤ MAX_ENTRY_IDS) :
    (applyOp b op).last_ids.length ≤ MAX_ENTRY_IDS := by
  cases op with
  | ptx t => exact le_of_eq_of_le (process_transaction_window_length b t) hb
  | ptxs ts => exact le_of_eq_of_le (process_transactions_window_length ts b) hb
  | pentries es => exact process_entries_window_le es b hb
  | reg h => exact register_entry_id_length_le _ _ hb

/-- Any sequence of public operations keeps the window within its bound. -/
theorem runOps_window_le (ops : List Op) (b : Bank) (hb : b.last_ids.length ≤ MAX_ENTRY_IDS) :
    (runOps b ops).last_ids.length ≤ MAX_ENTRY_IDS := by
  induction ops generalizing b with
  | nil => exact hb
  | cons op rest ih => exact ih (applyOp b op) (applyOp_window_le b op hb)

/-! Claim C7: FIFO eviction helpers. -/

/-- Appending on the right preserves the suffix relation. -/
theorem suffix_append_same {α : Type} {l1 l2 t : List α} (h : l1 <:+ l2) :
    l1 ++ t <:+ l2 ++ t := by
  obtain ⟨v, hv⟩ := h
  exact ⟨v, by rw [← List.append_assoc, hv]⟩

/-- A suffix of `a ++ b` no longer than `b` is a suffix of `b`. -/
theorem suffix_of_append_of_length_le {α : Type} {a b r : List α}
    (h : r <:+ a ++ b) (hl : r.length ≤ b.length) : r <:+ b := by
  obtain ⟨t, ht⟩ := h
  have hlen := congrArg List.length ht
  simp only [List.length_append] at hlen
  have hta : a.length ≤ t.length := by omega
  refine ⟨t.drop a.length, ?_⟩
  have hsplit : t.take a.length ++ (t.drop a.length ++ r) = a ++ b := by
    rw [← List.append_assoc, List.take_append_drop]
    exact ht
  have h2 := List.append_inj hsplit (by rw [List.length_take]; omega)
  exact h2.2

/-- One registration is a suffix of the window with the fresh entry
appended. -/
theorem register_entry_id_suffix (l : LastIds) (h : Hash) :
    register_entry_id l h <:+ l ++ [(h, [])] := by
  unfold register_entry_id
  split
  · exact suffix_append_same (List.tail_suffix l)
  · exact List.suffix_refl _

/-- Iterated registration is a suffix of the window with all fresh entries
appended. -/
theorem foldl_register_suffix (hs : List Hash) (l : LastIds) :
    hs.foldl register_entry_id l <:+ l ++ hs.map fun h => (h, []) := by
  induction hs generalizing l with
  | nil => simp
  | cons h rest ih =>
    show rest.foldl register_entry_id (register_entry_id l h) <:+ _
    have h1 := ih (register_entry_id l h)
    have h2 : register_entry_id l h ++ rest.map (fun h => ((h : Hash), ([] : SigSet))) <:+
        (l ++ [(h, [])]) ++ rest.map fun h => (h, []) :=
      suffix_append_same (register_entry_id_suffix l h)
    have h3 := h1.trans h2
    simpa [List.append_assoc] using h3

/-- Length of the window after one registration. -/
theorem register_entry_id_length (l : LastIds) (h : Hash)
    (hl : l.length ≤ MAX_ENTRY_IDS) :
    (register_entry_id l h).length = min MAX_ENTRY_IDS (l.length + 1) := by
  have hM : 0 < MAX_ENTRY_IDS := by decide
  unfold register_entry_id
  split
  · next hge =>
    simp only [List.length_append, List.length_tail, List.length_cons, List.length_nil]
    omega
  · next hlt =>
    simp only [List.length_append, List.length_cons, List.length_nil]
    omega

/-- Length of the window after iterated registration. -/
theorem foldl_register_length (hs : List Hash) (l : LastIds)
    (hl : l.length ≤ MAX_ENTRY_IDS) :
    (hs.foldl register_entry_id l).length = min MAX_ENTRY_IDS (l.length + hs.length) := by
  induction hs generalizing l with
  | nil =>
    simp only [List.foldl_nil, List.length_nil]
    omega
  | cons h rest ih =>
    show (rest.foldl register_entry_id (register_entry_id l h)).length = _
    rw [ih (register_entry_id l h) (register_entry_id_length_le l h hl),
      register_entry_id_length l h hl]
    simp only [List.length_cons]
    omega

/-- If no window entry bears the fingerprint, the scan fails with
`LastIdNotFound`. -/
theorem reserveInRev_not_found (s fp : Nat) (l : List (Hash × SigSet))
    (h : ∀ e ∈ l, e.1 ≠ fp) :
    reserveInRev s fp l = .error (.LastIdNotFound fp) := by
  induction l with
  | nil => rfl
  | cons hd tl ih =>
    obtain ⟨h1, sigs⟩ := hd
    have hne : h1 ≠ fp := h (h1, sigs) (List.mem_cons_self _ _)
    simp only [reserveInRev, if_neg hne]
    rw [ih fun e he => h e (List.mem_cons_of_mem _ he)]

/-- After at least `MAX_ENTRY_IDS` registrations of fingerprints other
than `fp`, every original entry has been evicted and a reservation
against `fp` fails with `LastIdNotFound`. -/
theorem eviction_after_max_registrations (l : LastIds) (hs : List Hash) (s fp : Nat)
    (hl : l.length ≤ MAX_ENTRY_IDS) (hn : MAX_ENTRY_IDS ≤ hs.length) (hfp : fp ∉ hs) :
    reserve_signature_with_last_id (hs.foldl register_entry_id l) s fp =
      .error (.LastIdNotFound fp) := by
  have hsuf : hs.foldl register_entry_id l <:+ l ++ hs.map fun h => (h, []) :=
    foldl_register_suffix hs l
  have hlen : (hs.foldl register_entry_id l).length =
      min MAX_ENTRY_IDS (l.length + hs.length) := foldl_register_length hs l hl
  have hwlen : (hs.foldl register_entry_id l).length ≤
      (hs.map fun h => ((h : Hash), ([] : SigSet))).length := by
    rw [hlen, List.length_map]
    omega
  have hsuf2 : hs.foldl register_entry_id l <:+ hs.map fun h => (h, []) :=
    suffix_of_append_of_length_le hsuf hwlen
  have hmem : ∀ e ∈ hs.foldl register_entry_id l, e.1 ≠ fp := by
    intro e he hc
    have h1 : e ∈ hs.map fun h => ((h : Hash), ([] : SigSet)) := hsuf2.subset he
    obtain ⟨a, ha, hae⟩ := List.mem_map.mp h1
    apply hfp
    have h3 : a = fp := by
      have h4 : e.1 = a := by rw [← hae]
      rw [← h4, hc]
    exact h3 ▸ ha
  unfold reserve_signature_with_last_id
  rw [reserveInRev_not_found s fp _ fun e he => hmem e (List.mem_reverse.mp he)]

/-! Claim C7. -/

/-- C7: the fingerprint window never holds more than `MAX_ENTRY_IDS = 4096`
entries in any reachable state; `register_entry_id` at capacity evicts the
oldest (front) entry; and after at least 4096 registrations of
fingerprints other than `fp`, a reservation against the evicted `fp` fails
with `LastIdNotFound`. -/
theorem c7_window_bounded_and_evicts :
    (∀ (D : Payment) (ops : List Op),
      (runOps (new_from_deposit D) ops).last_ids.length ≤ MAX_ENTRY_IDS) ∧
    (∀ (l : LastIds) (h : Hash), MAX_ENTRY_IDS ≤ l.length →
      register_entry_id l h = l.tail ++ [(h, [])]) ∧
    (∀ (l : LastIds) (hs : List Hash) (s fp : Nat),
      l.length ≤ MAX_ENTRY_IDS → MAX_ENTRY_IDS ≤ hs.length → fp ∉ hs →
      reserve_signature_with_last_id (hs.foldl register_entry_id l) s fp =
        .error (.LastIdNotFound fp)) := by
  refine ⟨?_, ?_, ?_⟩
  · intro D ops
    exact runOps_window_le ops _ (Nat.zero_le _)
  · intro l h hge
    unfold register_entry_id
    rw [if_pos hge]
  · intro l hs s fp hl hn hfp
    exact eviction_after_max_registrations l hs s fp hl hn hfp

/-- C7 witness: a full window at capacity evicts its front entry, and a
window rebuilt by 4096 fresh registrations no longer finds the original
fingerprint. -/
theorem c7_witness :
    (MAX_ENTRY_IDS ≤ (List.replicate MAX_ENTRY_IDS ((0 : Hash), ([] : SigSet))).length ∧
      register_entry_id (List.replicate MAX_ENTRY_IDS ((0 : Hash), ([] : SigSet))) 1 =
        (List.replicate MAX_ENTRY_IDS ((0 : Hash), ([] : SigSet))).tail ++ [(1, [])]) ∧
    (([] : LastIds).length ≤ MAX_ENTRY_IDS ∧
      MAX_ENTRY_IDS ≤ (List.range MAX_ENTRY_IDS).length ∧
      (5000 : Nat) ∉ List.range MAX_ENTRY_IDS ∧
      reserve_signature_with_last_id
          ((List.range MAX_ENTRY_IDS).foldl register_entry_id []) 1 5000 =
        .error (.LastIdNotFound 5000)) := by
  constructor
  · exact ⟨by simp, c7_window_bounded_and_evicts.2.1 _ 1 (by simp)⟩
  · exact ⟨Nat.zero_le _, by simp, by simp [List.mem_range]; decide,
      c7_window_bounded_and_evicts.2.2 [] _ 1 5000 (Nat.zero_le _) (by simp)
        (by simp [List.mem_range]; decide)⟩

/-! Claim C6 helpers. -/

/-- Looking up a key after a debit. -/
theorem lookupKey_debitBal (bals : Balances) (f : Nat) (t : Int) (k : Nat) :
    lookupKey k (debitBal bals f t) =
      (lookupKey k bals).map fun v => if k = f then v - t else v := by
  induction bals with
  | nil => rfl
  | cons kv rest ih =>
    obtain ⟨k1, v1⟩ := kv
    simp only [debitBal, List.map_cons] at ih ⊢
    by_cases h2 : k1 = f
    · subst h2
      by_cases h1 : k1 = k
      · subst h1
        simp [lookupKey]
      · simp only [if_pos rfl, if_true, lookupKey]
        rw [if_neg h1, if_neg h1]
        exact ih
    · by_cases h1 : k1 = k
      · subst h1
        simp only [if_neg h2, lookupKey, if_pos rfl, if_true]
        simp
      · simp only [if_neg h2, lookupKey, if_neg h1]
        exact ih

/-- A debit-wave step can only lower a balance, and can never create a
balance entry. -/
theorem apply_debits_balance_le (b : Bank) (tx : Transaction) (k : Nat) (v : Int)
    (h : lookupKey k (apply_debits b tx).1.balances = some v) :
    ∃ v0, lookupKey k b.balances = some v0 ∧ v ≤ v0 := by
  unfold apply_debits at h
  split at h
  · exact ⟨v, h, le_rfl⟩
  rename_i hneg
  split at h
  · exact ⟨v, h, le_rfl⟩
  rename_i bal hlook
  split at h
  · exact ⟨v, h, le_rfl⟩
  rename_i lids hres
  split at h
  · rename_i c hinstr
    split at h
    · exact ⟨v, h, le_rfl⟩
    rename_i hnlt
    dsimp only at h
    rw [lookupKey_debitBal] at h
    cases hlk : lookupKey k b.balances with
    | none => rw [hlk] at h; cases h
    | some v0 =>
      rw [hlk] at h
      have h2 : (if k = tx.from_ then v0 - c.tokens else v0) = v := by
        simpa using h
      have htok : (0 : Int) ≤ c.tokens := by
        unfold negTokens at hneg
        rw [hinstr] at hneg
        simpa using hneg
      refine ⟨v0, rfl, ?_⟩
      by_cases hkf : k = tx.from_
      · rw [if_pos hkf] at h2
        omega
      · rw [if_neg hkf] at h2
        omega
  · exact ⟨v, h, le_rfl⟩

/-- A successfully admitted `NewContract` debit had, at the time of the
debit, a balance of at least the contract's tokens. -/
theorem apply_debits_ok_funds (b : Bank) (tx : Transaction) (c : Contract)
    (hok : (apply_debits b tx).2 = none) (hinstr : tx.instruction = .NewContract c) :
    ∃ v0, lookupKey tx.from_ b.balances = some v0 ∧ c.tokens ≤ v0 := by
  unfold apply_debits at hok
  split at hok
  · exact absurd hok (by simp)
  split at hok
  · exact absurd hok (by simp)
  rename_i bal hlook
  split at hok
  · exact absurd hok (by simp)
  split at hok
  · rename_i c2 hinstr2
    have hcc : c2 = c := by
      rw [hinstr] at hinstr2
      cases hinstr2
      rfl
    subst hcc
    split at hok
    · exact absurd hok (by simp)
    rename_i hnlt
    exact ⟨bal, hlook, le_of_not_lt hnlt⟩
  · rename_i hother
    rw [hinstr] at hother
    exact absurd rfl (hother c)

/-- The credit wave returns the debit-wave results verbatim. -/
theorem creditWave_results (rs : List (Except BankError Transaction)) (b : Bank) :
    (creditWave b rs).2 = rs := by
  induction rs generalizing b with
  | nil => rfl
  | cons r rest ih =>
    show (r :: (creditWave (match r with | .ok tx => apply_credits b tx | .error _ => b)
      rest).2) = r :: rest
    rw [ih]

/-- The outcome vector of `process_transactions` is the debit wave's. -/
theorem process_transactions_results (b : Bank) (txs : List Transaction) :
    (process_transactions b txs).2 = (debitWave b txs).2 := by
  show (creditWave (debitWave b txs).1 (debitWave b txs).2).2 = (debitWave b txs).2
  rw [creditWave_results]

/-- Positional funds property of the debit wave: any transaction admitted
at some position of the batch was covered by its sender's balance at
batch start. -/
theorem debitWave_ok_funds (txs : List Transaction) (b : Bank) (i : Nat)
    (tx : Transaction) (c : Contract)
    (hres : (debitWave b txs).2.get? i = some (.ok tx))
    (hinstr : tx.instruction = .NewContract c) :
    ∃ v0, lookupKey tx.from_ b.balances = some v0 ∧ c.tokens ≤ v0 := by
  induction txs generalizing b i with
  | nil => simp [debitWave] at hres
  | cons t rest ih =>
    have hres' : ((match (apply_debits b t).2 with
        | none => Except.ok t
        | some e => Except.error (α := Transaction) e) ::
          (debitWave (apply_debits b t).1 rest).2).get? i = some (.ok tx) := hres
    cases i with
    | zero =>
      cases hd : (apply_debits b t).2 with
      | none =>
        rw [hd] at hres'
        have htx : t = tx := by
          have h1 : Except.ok (ε := BankError) t = Except.ok tx := by
            simpa using hres'
          cases h1
          rfl
        subst htx
        exact apply_debits_ok_funds b t c hd hinstr
      | some e =>
        rw [hd] at hres'
        simp at hres'
    | succ j =>
      have hres2 : (debitWave (apply_debits b t).1 rest).2.get? j = some (.ok tx) := by
        simpa using hres'
      obtain ⟨v1, hv1, hle1⟩ := ih (apply_debits b t).1 j hres2
      obtain ⟨v0, hv0, hle2⟩ := apply_debits_balance_le b t tx.from_ v1 hv1
      exact ⟨v0, hv0, le_trans hle1 hle2⟩

/-! Claim C6 (corrected). -/

/-- Bank for the contention counterexample: mint key `0` holds 10 tokens,
fingerprint `0` registered. -/
def contendBank : Bank := { mintBank with balances := [(0, 10)] }

/-- C6 counterexample: two transactions from the same account whose debits
together exceed the balance.  In order `[tx10, tx5]` the 10-token transfer
wins; swapped, the 5-token transfer wins; the final balances differ, so
batch outcomes are not invariant under swapping. -/
theorem c6_counterexample :
    lookupKey 1 (process_transactions contendBank
        [mkTransfer 1 0 1 10 0, mkTransfer 2 0 2 5 0]).1.balances ≠
    lookupKey 1 (process_transactions contendBank
        [mkTransfer 2 0 2 5 0, mkTransfer 1 0 1 10 0]).1.balances := by
  decide

/-- C6 amended: the two-wave pipeline guarantees that a credit produced by
one transaction of a batch never funds the debit of another: every
transaction whose admission succeeds (position `i` of the outcome vector
is `Ok`) was covered by its sender's balance at batch start.  Outcomes are
not, however, invariant under swapping when transactions contend for the
same funds. -/
theorem c6_spends_batch_start_funds (b : Bank) (txs : List Transaction) (i : Nat)
    (tx : Transaction) (c : Contract)
    (hres : (process_transactions b txs).2.get? i = some (.ok tx))
    (hinstr : tx.instruction = .NewContract c) :
    ∃ v0, lookupKey tx.from_ b.balances = some v0 ∧ c.tokens ≤ v0 := by
  rw [process_transactions_results] at hres
  exact debitWave_ok_funds txs b i tx c hres hinstr

/-- C6 witness: the first transaction of the counterexample batch is
admitted and indeed spends only batch-start funds. -/
theorem c6_witness :
    (process_transactions contendBank
        [mkTransfer 1 0 1 10 0, mkTransfer 2 0 2 5 0]).2.get? 0 =
      some (.ok (mkTransfer 1 0 1 10 0)) ∧
    ∃ v0, lookupKey (mkTransfer 1 0 1 10 0).from_ contendBank.balances = some v0 ∧
      ({ tokens := 10, plan := .Budget (.Pay { tokens := 10, to_ := 1 }) } : Contract).tokens ≤ v0 :=
  ⟨by decide,
    c6_spends_batch_start_funds contendBank [mkTransfer 1 0 1 10 0, mkTransfer 2 0 2 5 0] 0
      (mkTransfer 1 0 1 10 0) _ (by decide) rfl⟩

/-! Claim C4 helpers: plan non-negativity. -/

/-- A plan that verifies against a non-negative amount pays out only
non-negative amounts. -/
theorem planNonneg_of_verify (p : Plan) (s : Int) (hv : p.verify s = true) (hs : 0 ≤ s) :
    planNonneg p := by
  obtain ⟨bg⟩ := p
  cases bg with
  | Pay pay =>
    simp only [Plan.verify, Budget.verify, decide_eq_true_eq] at hv
    simpa [planNonneg, hv] using hs
  | After c pay =>
    simp only [Plan.verify, Budget.verify, decide_eq_true_eq] at hv
    simpa [planNonneg, hv] using hs
  | Race a b =>
    obtain ⟨c1, p1⟩ := a
    obtain ⟨c2, p2⟩ := b
    simp only [Plan.verify, Budget.verify, Bool.and_eq_true, decide_eq_true_eq] at hv
    constructor
    · rw [hv.1]; exact hs
    · rw [hv.2]; exact hs

/-- Witness application preserves plan non-negativity. -/
theorem planNonneg_apply_witness (p : Plan) (w : Witness) (h : planNonneg p) :
    planNonneg (p.apply_witness w) := by
  obtain ⟨bg⟩ := p
  cases bg with
  | Pay pay => exact h
  | After c pay =>
    simp only [Plan.apply_witness, Budget.apply_witness]
    split
    · exact h
    · exact h
  | Race a b =>
    obtain ⟨c1, p1⟩ := a
    obtain ⟨c2, p2⟩ := b
    simp only [Plan.apply_witness, Budget.apply_witness]
    split
    · exact h.1
    · split
      · exact h.2
      · exact h

/-- The final payment of a non-negative plan is non-negative. -/
theorem final_payment_nonneg (p : Plan) (pay : Payment) (h : planNonneg p)
    (hf : p.final_payment = some pay) : 0 ≤ pay.tokens := by
  obtain ⟨bg⟩ := p
  cases bg with
  | Pay pay2 =>
    simp only [Plan.final_payment, Budget.final_payment] at hf
    cases hf
    exact h
  | After c pay2 => simp [Plan.final_payment, Budget.final_payment] at hf
  | Race a b =>
    obtain ⟨c1, p1⟩ := a
    obtain ⟨c2, p2⟩ := b
    simp [Plan.final_payment, Budget.final_payment] at hf

/-- A key that `lookupKey` misses is not among the keys. -/
theorem lookupKey_none_not_mem {α : Type} (k : Nat) (l : List (Nat × α))
    (h : lookupKey k l = none) : k ∉ l.map Prod.fst := by
  induction l with
  | nil => simp
  | cons kv rest ih =>
    rw [lookupKey] at h
    by_cases hk : kv.1 = k
    · rw [if_pos hk] at h; cases h
    · rw [if_neg hk] at h
      simp only [List.map_cons, List.mem_cons]
      rintro (h1 | h1)
      · exact hk h1.symm
      · exact ih h h1

/-- With duplicate-free keys, membership determines the lookup. -/
theorem lookupKey_eq_of_mem_nodup {α : Type} (l : List (Nat × α)) (kv : Nat × α)
    (hnd : (l.map Prod.fst).Nodup) (hm : kv ∈ l) : lookupKey kv.1 l = some kv.2 := by
  induction l with
  | nil => cases hm
  | cons hd rest ih =>
    rcases List.mem_cons.mp hm with h1 | h1
    · subst h1
      rw [lookupKey, if_pos rfl]
    · have hne : hd.1 ≠ kv.1 := by
        intro hc
        have h2 : kv.1 ∈ rest.map Prod.fst := List.mem_map.mpr ⟨kv, h1, rfl⟩
        rw [List.map_cons, List.nodup_cons] at hnd
        exact hnd.1 (hc ▸ h2)
      rw [lookupKey, if_neg hne]
      rw [List.map_cons, List.nodup_cons] at hnd
      exact ih hnd.2 h1

/-- `apply_payment` of a non-negative amount preserves non-negative
balances. -/
theorem apply_payment_nonneg (bals : Balances) (pay : Payment)
    (hb : ∀ kv ∈ bals, 0 ≤ kv.2) (hp : 0 ≤ pay.tokens) :
    ∀ kv ∈ apply_payment bals pay, 0 ≤ kv.2 := by
  unfold apply_payment
  split
  · intro kv hkv
    obtain ⟨kv0, hkv0, hmap⟩ := List.mem_map.mp hkv
    by_cases hk : kv0.1 = pay.to_
    · rw [if_pos hk] at hmap
      rw [← hmap]
      have := hb kv0 hkv0
      simp only []
      omega
    · rw [if_neg hk] at hmap
      rw [← hmap]
      exact hb kv0 hkv0
  · intro kv hkv
    rcases List.mem_append.mp hkv with h1 | h1
    · exact hb kv h1
    · simp only [List.mem_singleton] at h1
      rw [h1]
      exact hp

/-- `apply_payment` preserves duplicate-free keys. -/
theorem apply_payment_keys_nodup (bals : Balances) (pay : Payment)
    (hnd : (bals.map Prod.fst).Nodup) :
    ((apply_payment bals pay).map Prod.fst).Nodup := by
  unfold apply_payment
  split
  · have hkeys : (bals.map fun kv =>
        if kv.1 = pay.to_ then (kv.1, kv.2 + pay.tokens) else kv).map Prod.fst =
        bals.map Prod.fst := by
      rw [List.map_map]
      apply List.map_congr_left
      intro kv hkv
      by_cases hk : kv.1 = pay.to_
      · simp [hk]
      · simp [hk]
    rw [hkeys]
    exact hnd
  · next hnone =>
    rw [List.map_append]
    simp only [List.map_cons, List.map_nil]
    rw [List.nodup_append]
    refine ⟨hnd, List.nodup_singleton _, ?_⟩
    intro a ha hb2
    simp only [List.mem_singleton] at hb2
    subst hb2
    have h1 : lookupKey pay.to_ bals = none := by
      cases h2 : lookupKey pay.to_ bals with
      | none => rfl
      | some v => rw [h2] at hnone; simp at hnone
    exact lookupKey_none_not_mem _ _ h1 ha

/-- `debitBal` leaves the key list unchanged. -/
theorem debitBal_keys (bals : Balances) (f : Nat) (t : Int) :
    (debitBal bals f t).map Prod.fst = bals.map Prod.fst := by
  unfold debitBal
  rw [List.map_map]
  apply List.map_congr_left
  intro kv hkv
  by_cases hk : kv.1 = f
  · simp [hk]
  · simp [hk]

/-- A guarded debit keeps all balances non-negative. -/
theorem debitBal_nonneg (bals : Balances) (f : Nat) (t : Int) (bal : Int)
    (hnd : (bals.map Prod.fst).Nodup)
    (hb : ∀ kv ∈ bals, 0 ≤ kv.2)
    (hlook : lookupKey f bals = some bal) (hge : t ≤ bal) :
    ∀ kv ∈ debitBal bals f t, 0 ≤ kv.2 := by
  intro kv hkv
  obtain ⟨kv0, hkv0, hmap⟩ := List.mem_map.mp hkv
  by_cases hk : kv0.1 = f
  · rw [if_pos hk] at hmap
    have hlk : lookupKey kv0.1 bals = some kv0.2 := lookupKey_eq_of_mem_nodup bals kv0 hnd hkv0
    rw [hk, hlook] at hlk
    have hv : kv0.2 = bal := by
      cases hlk
      rfl
    rw [← hmap]
    simp only []
    omega
  · rw [if_neg hk] at hmap
    rw [← hmap]
    exact hb kv0 hkv0

/-- `apply_debits` preserves the non-negativity invariant
(unconditionally: debits are guarded and the pending table is
untouched). -/
theorem apply_debits_nonneg (b : Bank) (tx : Transaction) (hI : NonNegInv b) :
    NonNegInv (apply_debits b tx).1 := by
  have hpend := (apply_debits_frame b tx).1
  unfold apply_debits
  split
  · exact hI
  split
  · exact hI
  rename_i bal hlook
  split
  · exact hI
  rename_i lids hres
  split
  · rename_i c hinstr
    split
    · exact { bals := hI.bals, nodup := hI.nodup, pend := hI.pend }
    · rename_i hnlt
      refine { bals := ?_, nodup := ?_, pend := hI.pend }
      · exact debitBal_nonneg b.balances tx.from_ c.tokens bal hI.nodup hI.bals hlook
          (le_of_not_lt hnlt)
      · rw [debitBal_keys]
        exact hI.nodup
  · exact { bals := hI.bals, nodup := hI.nodup, pend := hI.pend }

/-- Payments released by a sweep of a non-negative pending table are
non-negative. -/
theorem sweepPayments_nonneg (w : Witness) (pend : Pending)
    (hp : ∀ sp ∈ pend, planNonneg sp.2) :
    ∀ pay ∈ sweepPayments (sweepPend w pend), 0 ≤ pay.tokens := by
  intro pay hpay
  obtain ⟨sp, hsp, hfin⟩ := List.mem_filterMap.mp hpay
  obtain ⟨sp0, hsp0, hmap⟩ := List.mem_map.mp hsp
  have h1 : planNonneg sp.2 := by
    rw [← hmap]
    exact planNonneg_apply_witness sp0.2 w (hp sp0 hsp0)
  exact final_payment_nonneg sp.2 pay h1 hfin

/-- Plans kept by a sweep of a non-negative pending table are
non-negative. -/
theorem sweepRemaining_nonneg (w : Witness) (pend : Pending)
    (hp : ∀ sp ∈ pend, planNonneg sp.2) :
    ∀ sp ∈ sweepRemaining (sweepPend w pend), planNonneg sp.2 := by
  intro sp hsp
  have h1 : sp ∈ sweepPend w pend := (List.mem_filter.mp hsp).1
  obtain ⟨sp0, hsp0, hmap⟩ := List.mem_map.mp h1
  rw [← hmap]
  exact planNonneg_apply_witness sp0.2 w (hp sp0 hsp0)

/-- Folding non-negative payments preserves the balance invariant. -/
theorem foldl_apply_payment_nonneg (pays : List Payment) (bals : Balances)
    (hb : ∀ kv ∈ bals, 0 ≤ kv.2) (hnd : (bals.map Prod.fst).Nodup)
    (hp : ∀ pay ∈ pays, 0 ≤ pay.tokens) :
    (∀ kv ∈ pays.foldl apply_payment bals, 0 ≤ kv.2) ∧
    ((pays.foldl apply_payment bals).map Prod.fst).Nodup := by
  induction pays generalizing bals with
  | nil => exact ⟨hb, hnd⟩
  | cons pay rest ih =>
    have h1 : 0 ≤ pay.tokens := hp pay (List.mem_cons_self _ _)
    exact ih (apply_payment bals pay)
      (apply_payment_nonneg bals pay hb h1)
      (apply_payment_keys_nodup bals pay hnd)
      (fun p hm => hp p (List.mem_cons_of_mem _ hm))

/-- `apply_timestamp` preserves the non-negativity invariant. -/
theorem apply_timestamp_nonneg (b : Bank) (f : PublicKey) (t : DateTimeUtc)
    (hI : NonNegInv b) : NonNegInv (apply_timestamp b f t) := by
  unfold apply_timestamp
  dsimp only
  by_cases hm : f ∈ (if b.last_time = 0 then insertSet f b.time_sources else b.time_sources)
  · rw [if_pos hm]
    set lt := if b.last_time < t then t else b.last_time with hlt
    refine { bals := ?_, nodup := ?_, pend := ?_ }
    · exact (foldl_apply_payment_nonneg _ _ hI.bals hI.nodup
        (sweepPayments_nonneg (Witness.Timestamp lt) b.pending hI.pend)).1
    · exact (foldl_apply_payment_nonneg _ _ hI.bals hI.nodup
        (sweepPayments_nonneg (Witness.Timestamp lt) b.pending hI.pend)).2
    · exact sweepRemaining_nonneg (Witness.Timestamp lt) b.pending hI.pend
  · rw [if_neg hm]
    exact { bals := hI.bals, nodup := hI.nodup, pend := hI.pend }

/-- A successful lookup yields a member of the association list. -/
theorem mem_of_lookupKey {α : Type} (l : List (Nat × α)) (k : Nat) (v : α)
    (h : lookupKey k l = some v) : (k, v) ∈ l := by
  induction l with
  | nil => cases h
  | cons kv rest ih =>
    obtain ⟨k1, v1⟩ := kv
    rw [lookupKey] at h
    by_cases hk : k1 = k
    · rw [if_pos hk] at h
      cases h
      subst hk
      exact List.mem_cons_self _ _
    · rw [if_neg hk] at h
      exact List.mem_cons_of_mem _ (ih h)

/-- `apply_signature` preserves the non-negativity invariant. -/
theorem apply_signature_nonneg (b : Bank) (f : PublicKey) (s : Signature)
    (hI : NonNegInv b) : NonNegInv (apply_signature b f s) := by
  unfold apply_signature
  split
  · exact hI
  rename_i plan hlook
  dsimp only
  have hplan : planNonneg plan := by
    exact hI.pend (s, plan) (mem_of_lookupKey b.pending s plan hlook)
  have hplan' : planNonneg (plan.apply_witness (Witness.Signature f)) :=
    planNonneg_apply_witness plan _ hplan
  split
  · rename_i pay hfin
    refine { bals := ?_, nodup := ?_, pend := ?_ }
    · exact apply_payment_nonneg b.balances pay hI.bals
        (final_payment_nonneg _ pay hplan' hfin)
    · exact apply_payment_keys_nodup b.balances pay hI.nodup
    · intro sp hsp
      exact hI.pend sp (List.mem_filter.mp hsp).1
  · refine { bals := hI.bals, nodup := hI.nodup, pend := ?_ }
    intro sp hsp
    obtain ⟨sp0, hsp0, hmap⟩ := List.mem_map.mp hsp
    by_cases hk : sp0.1 = s
    · rw [if_pos hk] at hmap
      rw [← hmap]
      exact hplan'
    · rw [if_neg hk] at hmap
      rw [← hmap]
      exact hI.pend sp0 hsp0

/-- `apply_credits` preserves the non-negativity invariant for
transactions passing `verify_plan`. -/
theorem apply_credits_nonneg (b : Bank) (tx : Transaction)
    (hvp : tx.verify_plan = true) (hI : NonNegInv b) :
    NonNegInv (apply_credits b tx) := by
  unfold apply_credits
  cases hinstr : tx.instruction with
  | NewContract c =>
    dsimp only
    have hfacts : 0 ≤ tx.fee ∧ tx.fee ≤ c.tokens ∧
        c.plan.verify (c.tokens - tx.fee) = true := by
      unfold Transaction.verify_plan at hvp
      rw [hinstr] at hvp
      simpa [Bool.and_eq_true, and_assoc] using hvp
    obtain ⟨hf1, hf2, hf3⟩ := hfacts
    have hnn : planNonneg (c.plan.apply_witness (Witness.Timestamp b.last_time)) :=
      planNonneg_apply_witness _ _
        (planNonneg_of_verify c.plan (c.tokens - tx.fee) hf3 (by omega))
    split
    · rename_i pay hfin
      exact { bals := apply_payment_nonneg _ _ hI.bals (final_payment_nonneg _ pay hnn hfin)
              nodup := apply_payment_keys_nodup _ _ hI.nodup
              pend := hI.pend }
    · refine { bals := hI.bals, nodup := hI.nodup, pend := ?_ }
      intro sp hsp
      unfold insertPending at hsp
      split at hsp
      · obtain ⟨sp0, hsp0, hmap⟩ := List.mem_map.mp hsp
        by_cases hk : sp0.1 = tx.sig
        · rw [if_pos hk] at hmap
          rw [← hmap]
          exact hnn
        · rw [if_neg hk] at hmap
          rw [← hmap]
          exact hI.pend sp0 hsp0
      · rcases List.mem_append.mp hsp with h1 | h1
        · exact hI.pend sp h1
        · simp only [List.mem_singleton] at h1
          rw [h1]
          exact hnn
  | ApplyTimestamp dt => exact apply_timestamp_nonneg b tx.from_ dt hI
  | ApplySignature s2 => exact apply_signature_nonneg b tx.from_ s2 hI

/-- `process_transaction` preserves the non-negativity invariant. -/
theorem process_transaction_nonneg (b : Bank) (tx : Transaction)
    (hvp : tx.verify_plan = true) (hI : NonNegInv b) :
    NonNegInv (process_transaction b tx).1 := by
  rcases hd : apply_debits b tx with ⟨b1, e1⟩
  have hI1 : NonNegInv b1 := by
    have h2 := apply_debits_nonneg b tx hI
    rw [hd] at h2
    exact h2
  cases e1 with
  | none =>
    rw [process_transaction_ok b b1 tx hd]
    exact apply_credits_nonneg b1 tx hvp hI1
  | some e2 =>
    rw [process_transaction_err b b1 tx e2 hd]
    exact hI1

/-- The debit wave preserves the non-negativity invariant. -/
theorem debitWave_nonneg (txs : List Transaction) (b : Bank) (hI : NonNegInv b) :
    NonNegInv (debitWave b txs).1 := by
  induction txs generalizing b with
  | nil => exact hI
  | cons tx rest ih =>
    show NonNegInv (debitWave (apply_debits b tx).1 rest).1
    exact ih _ (apply_debits_nonneg b tx hI)

/-- Any `Ok` outcome of the debit wave carries a transaction of the
batch. -/
theorem debitWave_ok_mem (txs : List Transaction) (b : Bank) (tx : Transaction)
    (h : Except.ok tx ∈ (debitWave b txs).2) : tx ∈ txs := by
  induction txs generalizing b with
  | nil => cases h
  | cons t rest ih =>
    have h2 : Except.ok tx ∈ ((match (apply_debits b t).2 with
        | none => Except.ok t
        | some e => Except.error (α := Transaction) e) ::
          (debitWave (apply_debits b t).1 rest).2) := h
    rcases List.mem_cons.mp h2 with h1 | h1
    · cases hd : (apply_debits b t).2 with
      | none =>
        rw [hd] at h1
        cases h1
        exact List.mem_cons_self _ _
      | some e =>
        rw [hd] at h1
        cases h1
    · exact List.mem_cons_of_mem _ (ih _ h1)

/-- The credit wave preserves the non-negativity invariant when every
admitted transaction passes `verify_plan`. -/
theorem creditWave_nonneg (rs : List (Except BankError Transaction)) : ∀ (b : Bank),
    (∀ tx, Except.ok tx ∈ rs → tx.verify_plan = true) → NonNegInv b →
    NonNegInv (creditWave b rs).1 := by
  induction rs with
  | nil => exact fun b _ hI => hI
  | cons r rest ih =>
    intro b hvp hI
    cases r with
    | ok tx =>
      show NonNegInv (creditWave (apply_credits b tx) rest).1
      exact ih _ (fun t ht => hvp t (List.mem_cons_of_mem _ ht))
        (apply_credits_nonneg b tx (hvp tx (List.mem_cons_self _ _)) hI)
    | error e =>
      show NonNegInv (creditWave b rest).1
      exact ih _ (fun t ht => hvp t (List.mem_cons_of_mem _ ht)) hI

/-- `process_transactions` preserves the non-negativity invariant. -/
theorem process_transactions_nonneg (txs : List Transaction) (b : Bank)
    (hvp : ∀ tx ∈ txs, tx.verify_plan = true) (hI : NonNegInv b) :
    NonNegInv (process_transactions b txs).1 := by
  show NonNegInv (creditWave (debitWave b txs).1 (debitWave b txs).2).1
  exact creditWave_nonneg (debitWave b txs).2 (debitWave b txs).1
    (fun tx ht => hvp tx (debitWave_ok_mem txs b tx ht))
    (debitWave_nonneg txs b hI)

/-- `process_entries` preserves the non-negativity invariant. -/
theorem process_entries_nonneg (es : List Entry) : ∀ (b : Bank),
    (∀ tx ∈ (es.map Entry.transactions).flatten, tx.verify_plan = true) → NonNegInv b →
    NonNegInv (process_entries b es).1 := by
  induction es with
  | nil => exact fun b _ hI => hI
  | cons e rest ih =>
    intro b hvp hI
    have hsplit : ((e :: rest).map Entry.transactions).flatten =
        e.transactions ++ (rest.map Entry.transactions).flatten := by
      simp
    rw [hsplit] at hvp
    have hI1 : NonNegInv (process_transactions b e.transactions).1 :=
      process_transactions_nonneg e.transactions b
        (fun tx ht => hvp tx (List.mem_append.mpr (Or.inl ht))) hI
    unfold process_entries
    dsimp only
    split
    · exact hI1
    · exact ih _ (fun tx ht => hvp tx (List.mem_append.mpr (Or.inr ht)))
        { bals := hI1.bals, nodup := hI1.nodup, pend := hI1.pend }

/-- Any sequence of public operations whose transactions all pass
`verify_plan` preserves the non-negativity invariant. -/
theorem runOps_nonneg (ops : List Op) : ∀ (b : Bank),
    (∀ tx ∈ opTxs ops, tx.verify_plan = true) → NonNegInv b →
    NonNegInv (runOps b ops) := by
  induction ops with
  | nil => exact fun b _ hI => hI
  | cons op rest ih =>
    intro b hvp hI
    show NonNegInv (runOps (applyOp b op) rest)
    have hop : NonNegInv (applyOp b op) := by
      cases op with
      | ptx t =>
        exact process_transaction_nonneg b t (hvp t (by simp [opTxs])) hI
      | ptxs ts =>
        refine process_transactions_nonneg ts b (fun tx ht => hvp tx ?_) hI
        simp only [opTxs, List.mem_append]
        exact Or.inl ht
      | pentries es =>
        refine process_entries_nonneg es b (fun tx ht => hvp tx ?_) hI
        simp only [opTxs, List.mem_append]
        exact Or.inl ht
      | reg h => exact { bals := hI.bals, nodup := hI.nodup, pend := hI.pend }
    refine ih _ ?_ hop
    intro tx ht
    apply hvp
    cases op with
    | ptx t => simp [opTxs, ht]
    | ptxs ts => simp [opTxs, ht]
    | pentries es => simp [opTxs, ht]
    | reg h => simpa [opTxs] using ht

/-! Claim C4 (corrected). -/

/-- C4 counterexample: the engine never calls `verify_plan`, so a contract
debiting zero tokens whose plan pays `-3` drives account `1` negative. -/
theorem c4_counterexample :
    ¬ (∀ kv ∈ (runOps (new_from_deposit { tokens := 5, to_ := 0 })
        [Op.reg 0, Op.ptx evilTx]).balances, 0 ≤ kv.2) := by
  decide

/-- C4 amended: in every state reachable from a non-negative deposit by
`process_transaction`, `process_transactions`, `process_entries` and
`register_entry_id` calls whose transactions all satisfy `verify_plan`,
every account balance is non-negative. -/
theorem c4_nonneg_balances (D : Payment) (ops : List Op) (hD : 0 ≤ D.tokens)
    (hvp : ∀ tx ∈ opTxs ops, tx.verify_plan = true) :
    ∀ kv ∈ (runOps (new_from_deposit D) ops).balances, 0 ≤ kv.2 := by
  have hI0 : NonNegInv (new_from_deposit D) := by
    refine { bals := ?_, nodup := ?_, pend := ?_ }
    · intro kv hkv
      have hb : (new_from_deposit D).balances = [(D.to_, D.tokens)] := rfl
      rw [hb] at hkv
      simp only [List.mem_singleton] at hkv
      rw [hkv]
      exact hD
    · have hb : (new_from_deposit D).balances = [(D.to_, D.tokens)] := rfl
      rw [hb]
      simp
    · intro sp hsp
      cases hsp
  exact (runOps_nonneg ops (new_from_deposit D) hvp hI0).bals

/-- C4 witness: a well-formed transfer sequence keeps all balances
non-negative. -/
theorem c4_witness :
    (0 : Int) ≤ ({ tokens := 5, to_ := 0 } : Payment).tokens ∧
    (∀ tx ∈ opTxs [Op.reg 0, Op.ptx (mkTransfer 1 0 1 2 0)], tx.verify_plan = true) ∧
    ∀ kv ∈ (runOps (new_from_deposit { tokens := 5, to_ := 0 })
        [Op.reg 0, Op.ptx (mkTransfer 1 0 1 2 0)]).balances, 0 ≤ kv.2 :=
  ⟨by decide, by decide, c4_nonneg_balances _ _ (by decide) (by decide)⟩

/-! Claim C1 helpers: plan amounts. -/

/-- A plan verifying against `s` locks exactly `s`. -/
theorem lockedOf_eq_of_verify (p : Plan) (s : Int) (h : p.verify s = true) :
    lockedOf p = s := by
  obtain ⟨bg⟩ := p
  cases bg with
  | Pay pay => simpa [Plan.verify, Budget.verify, lockedOf] using h
  | After c pay => simpa [Plan.verify, Budget.verify, lockedOf] using h
  | Race a b =>
    obtain ⟨c1, p1⟩ := a
    obtain ⟨c2, p2⟩ := b
    simp only [Plan.verify, Budget.verify, Bool.and_eq_true, decide_eq_true_eq] at h
    simpa [lockedOf] using h.1

/-- Witness application preserves `verify`. -/
theorem verify_apply_witness (p : Plan) (s : Int) (w : Witness) (h : p.verify s = true) :
    (p.apply_witness w).verify s = true := by
  obtain ⟨bg⟩ := p
  cases bg with
  | Pay pay => exact h
  | After c pay =>
    simp only [Plan.apply_witness, Budget.apply_witness]
    split
    · simpa [Plan.verify, Budget.verify] using h
    · exact h
  | Race a b =>
    obtain ⟨c1, p1⟩ := a
    obtain ⟨c2, p2⟩ := b
    simp only [Plan.verify, Budget.verify, Bool.and_eq_true, decide_eq_true_eq] at h
    simp only [Plan.apply_witness, Budget.apply_witness]
    split
    · simpa [Plan.verify, Budget.verify] using h.1
    · split
      · simpa [Plan.verify, Budget.verify] using h.2
      · simp [Plan.verify, Budget.verify, h.1, h.2]

/-- A final payment of a verifying plan pays exactly the verified
amount. -/
theorem final_payment_tokens (p : Plan) (s : Int) (pay : Payment)
    (hv : p.verify s = true) (hf : p.final_payment = some pay) : pay.tokens = s := by
  obtain ⟨bg⟩ := p
  cases bg with
  | Pay pay2 =>
    simp only [Plan.final_payment, Budget.final_payment] at hf
    cases hf
    simpa [Plan.verify, Budget.verify] using hv
  | After c pay2 => simp [Plan.final_payment, Budget.final_payment] at hf
  | Race a b =>
    obtain ⟨c1, p1⟩ := a
    obtain ⟨c2, p2⟩ := b
    simp [Plan.final_payment, Budget.final_payment] at hf

/-- Witness application does not change the locked amount of a plan that
verifies against its own locked amount. -/
theorem lockedOf_apply_witness (p : Plan) (w : Witness)
    (h : p.verify (lockedOf p) = true) :
    lockedOf (p.apply_witness w) = lockedOf p :=
  lockedOf_eq_of_verify _ _ (verify_apply_witness p (lockedOf p) w h)

/-! Claim C1 helpers: sums over association lists. -/

/-- An update of a key absent from the list is the identity. -/
theorem map_update_id {α : Type} (l : List (Nat × α)) (k : Nat) (f : α → α)
    (hout : k ∉ l.map Prod.fst) :
    (l.map fun kv => if kv.1 = k then (kv.1, f kv.2) else kv) = l := by
  induction l with
  | nil => rfl
  | cons kv rest ih =>
    simp only [List.map_cons, List.mem_cons] at hout ⊢
    have h1 : kv.1 ≠ k := fun hc => hout (Or.inl hc.symm)
    rw [if_neg h1, ih fun hc => hout (Or.inr hc)]

/-- Sum of a measure after updating the (unique) entry at key `k`. -/
theorem sumBy_map_update {α : Type} (m : α → Int) (l : List (Nat × α)) (k : Nat)
    (f : α → α) (v : α)
    (hnd : (l.map Prod.fst).Nodup) (hlook : lookupKey k l = some v) :
    ((l.map fun kv => if kv.1 = k then (kv.1, f kv.2) else kv).map fun kv => m kv.2).sum =
      ((l.map fun kv => m kv.2).sum) - m v + m (f v) := by
  induction l with
  | nil => cases hlook
  | cons kv rest ih =>
    obtain ⟨k1, v1⟩ := kv
    rw [List.map_cons, List.nodup_cons] at hnd
    rw [lookupKey] at hlook
    by_cases h1 : k1 = k
    · rw [if_pos h1] at hlook
      cases hlook
      simp only [List.map_cons, if_pos h1, List.sum_cons]
      rw [map_update_id rest k f (h1 ▸ hnd.1)]
      ring
    · rw [if_neg h1] at hlook
      simp only [List.map_cons, if_neg h1, List.sum_cons]
      rw [ih hnd.2 hlook]
      ring

/-- Sum of a measure after removing the (unique) entry at key `k`. -/
theorem sumBy_filter_out {α : Type} (m : α → Int) (l : List (Nat × α)) (k : Nat) (v : α)
    (hnd : (l.map Prod.fst).Nodup) (hlook : lookupKey k l = some v) :
    (((l.filter fun kv => kv.1 ≠ k).map fun kv => m kv.2).sum) =
      ((l.map fun kv => m kv.2).sum) - m v := by
  induction l with
  | nil => cases hlook
  | cons kv rest ih =>
    obtain ⟨k1, v1⟩ := kv
    rw [List.map_cons, List.nodup_cons] at hnd
    rw [lookupKey] at hlook
    by_cases h1 : k1 = k
    · rw [if_pos h1] at hlook
      cases hlook
      rw [List.filter_cons_of_neg (by simp [h1])]
      have hkeep : rest.filter (fun kv => kv.1 ≠ k) = rest := by
        apply List.filter_eq_self.mpr
        intro a ha
        simp only [ne_eq, decide_eq_true_eq]
        intro hc
        exact (h1 ▸ hnd.1) (List.mem_map.mpr ⟨a, ha, hc⟩)
      rw [hkeep]
      simp only [List.map_cons, List.sum_cons]
      ring
    · rw [if_neg h1] at hlook
      rw [List.filter_cons_of_pos (by simp [h1])]
      simp only [List.map_cons, List.sum_cons]
      rw [ih hnd.2 hlook]
      ring

/-- `apply_payment` adds exactly the payment amount to the total. -/
theorem sumBals_apply_payment (bals : Balances) (pay : Payment)
    (hnd : (bals.map Prod.fst).Nodup) :
    sumBals (apply_payment bals pay) = sumBals bals + pay.tokens := by
  unfold apply_payment
  split
  · next hsome =>
    cases hlk : lookupKey pay.to_ bals with
    | none => rw [hlk] at hsome; simp at hsome
    | some v =>
      have h2 := sumBy_map_update (fun x => x) bals pay.to_ (fun x => x + pay.tokens) v hnd hlk
      unfold sumBals
      exact h2.trans (by ring)
  · unfold sumBals
    simp

/-- `debitBal` removes exactly the debited amount from the total. -/
theorem sumBals_debitBal (bals : Balances) (k : Nat) (t v : Int)
    (hnd : (bals.map Prod.fst).Nodup) (hlook : lookupKey k bals = some v) :
    sumBals (debitBal bals k t) = sumBals bals - t := by
  have h2 := sumBy_map_update (fun x => x) bals k (fun x => x - t) v hnd hlook
  unfold sumBals debitBal
  exact h2.trans (by ring)

/-- Replacing the plan at a pending key adjusts the locked total. -/
theorem sumPending_replace (pend : Pending) (s : Nat) (pl' old : Plan)
    (hnd : (pend.map Prod.fst).Nodup) (hlook : lookupKey s pend = some old) :
    sumPending (pend.map fun sp => if sp.1 = s then (sp.1, pl') else sp) =
      sumPending pend - lockedOf old + lockedOf pl' := by
  have h2 := sumBy_map_update lockedOf pend s (fun _ => pl') old hnd hlook
  unfold sumPending
  exact h2.trans (by ring)

/-- Removing a pending key releases its locked amount. -/
theorem sumPending_remove (pend : Pending) (s : Nat) (old : Plan)
    (hnd : (pend.map Prod.fst).Nodup) (hlook : lookupKey s pend = some old) :
    sumPending (pend.filter fun sp => sp.1 ≠ s) = sumPending pend - lockedOf old := by
  have h2 := sumBy_filter_out lockedOf pend s old hnd hlook
  unfold sumPending
  exact h2

/-- Appending a fresh pending entry adds its locked amount. -/
theorem sumPending_append (pend : Pending) (s : Nat) (pl : Plan) :
    sumPending (pend ++ [(s, pl)]) = sumPending pend + lockedOf pl := by
  unfold sumPending
  simp

/-- A sweep partitions the locked total into released payments and the
amounts still locked. -/
theorem sumPending_sweep_split (l : Pending) :
    sumPending l =
      ((sweepPayments l).map Payment.tokens).sum + sumPending (sweepRemaining l) := by
  induction l with
  | nil => rfl
  | cons sp rest ih =>
    obtain ⟨s, p⟩ := sp
    cases hf : p.final_payment with
    | some pay =>
      have hl : lockedOf p = pay.tokens := by
        obtain ⟨bg⟩ := p
        cases bg with
        | Pay pay2 =>
          simp only [Plan.final_payment, Budget.final_payment] at hf
          cases hf
          rfl
        | After c pay2 => simp [Plan.final_payment, Budget.final_payment] at hf
        | Race a b =>
          obtain ⟨c1, p1⟩ := a
          obtain ⟨c2, p2⟩ := b
          simp [Plan.final_payment, Budget.final_payment] at hf
      unfold sumPending sweepPayments sweepRemaining at ih ⊢
      simp only [List.filterMap_cons, List.filter_cons, hf, Option.isNone_some,
        Bool.false_eq_true, if_false, List.map_cons, List.sum_cons]
      rw [hl, ih]
      ring
    | none =>
      unfold sumPending sweepPayments sweepRemaining at ih ⊢
      simp only [List.filterMap_cons, List.filter_cons, hf, Option.isNone_none,
        if_true, List.map_cons, List.sum_cons]
      rw [ih]
      ring

/-- A sweep step preserves the locked total of a balanced pending table. -/
theorem sumPending_sweepPend (w : Witness) (l : Pending) :
    (∀ sp ∈ l, sp.2.verify (lockedOf sp.2) = true) →
    sumPending (sweepPend w l) = sumPending l := by
  induction l with
  | nil => intro _; rfl
  | cons sp rest ih =>
    intro hb
    show sumPending ((sp.1, sp.2.apply_witness w) :: sweepPend w rest) = _
    unfold sumPending
    simp only [List.map_cons, List.sum_cons]
    have h1 := ih fun sp2 h2 => hb sp2 (List.mem_cons_of_mem _ h2)
    unfold sumPending at h1
    rw [h1, lockedOf_apply_witness sp.2 w (hb sp (List.mem_cons_self _ _))]

/-- Folding payments preserves duplicate-free keys. -/
theorem foldl_apply_payment_nodup (pays : List Payment) : ∀ (bals : Balances),
    (bals.map Prod.fst).Nodup → ((pays.foldl apply_payment bals).map Prod.fst).Nodup := by
  induction pays with
  | nil => exact fun bals h => h
  | cons pay rest ih => exact fun bals h => ih _ (apply_payment_keys_nodup bals pay h)

/-- Folding payments adds their total amount. -/
theorem sumBals_foldl_payments (pays : List Payment) : ∀ (bals : Balances),
    (bals.map Prod.fst).Nodup →
    sumBals (pays.foldl apply_payment bals) = sumBals bals + (pays.map Payment.tokens).sum := by
  induction pays with
  | nil => intro bals _; simp
  | cons pay rest ih =>
    intro bals hnd
    show sumBals (rest.foldl apply_payment (apply_payment bals pay)) = _
    rw [ih _ (apply_payment_keys_nodup bals pay hnd), sumBals_apply_payment bals pay hnd]
    simp only [List.map_cons, List.sum_cons]
    ring

/-- The sweep keeps pending keys duplicate-free. -/
theorem sweep_keys_nodup (w : Witness) (l : Pending) (hnd : (l.map Prod.fst).Nodup) :
    ((sweepRemaining (sweepPend w l)).map Prod.fst).Nodup := by
  have h1 : (sweepPend w l).map Prod.fst = l.map Prod.fst := by
    unfold sweepPend
    rw [List.map_map]
    apply List.map_congr_left
    intro sp _
    rfl
  have h2 : ((sweepRemaining (sweepPend w l)).map Prod.fst).Sublist
      ((sweepPend w l).map Prod.fst) :=
    List.Sublist.map Prod.fst (List.filter_sublist _)
  rw [h1] at h2
  exact List.Nodup.sublist h2 hnd

/-- `lookupKey` misses keys that are absent. -/
theorem lookupKey_none_of_not_mem {α : Type} (k : Nat) (l : List (Nat × α))
    (h : k ∉ l.map Prod.fst) : lookupKey k l = none := by
  cases hl : lookupKey k l with
  | none => rfl
  | some v => exact absurd (List.mem_map.mpr ⟨(k, v), mem_of_lookupKey l k v hl, rfl⟩) h

/-- `apply_timestamp` preserves the conservation invariant. -/
theorem apply_timestamp_cons_inv (b : Bank) (f : PublicKey) (t : DateTimeUtc)
    (D : Int) (U : Nat → Prop) (hI : ConsInv b D U) :
    ConsInv (apply_timestamp b f t) D U := by
  unfold apply_timestamp
  dsimp only
  by_cases hm : f ∈ (if b.last_time = 0 then insertSet f b.time_sources else b.time_sources)
  · rw [if_pos hm]
    set lt := if b.last_time < t then t else b.last_time with hlt
    refine { sum := ?_, nodupB := ?_, nodupP := ?_, bal := ?_, used := ?_ }
    · show sumBals ((sweepPayments (sweepPend (Witness.Timestamp lt) b.pending)).foldl
          apply_payment b.balances) +
        sumPending (sweepRemaining (sweepPend (Witness.Timestamp lt) b.pending)) = D
      rw [sumBals_foldl_payments _ _ hI.nodupB]
      have hsplit := sumPending_sweep_split (sweepPend (Witness.Timestamp lt) b.pending)
      have hstep := sumPending_sweepPend (Witness.Timestamp lt) b.pending hI.bal
      have hs := hI.sum
      linarith
    · exact foldl_apply_payment_nodup _ _ hI.nodupB
    · exact sweep_keys_nodup _ _ hI.nodupP
    · intro sp hsp
      have h1 : sp ∈ sweepPend (Witness.Timestamp lt) b.pending :=
        (List.mem_filter.mp hsp).1
      obtain ⟨sp0, hsp0, hmap⟩ := List.mem_map.mp h1
      rw [← hmap]
      show (sp0.2.apply_witness (Witness.Timestamp lt)).verify
        (lockedOf (sp0.2.apply_witness (Witness.Timestamp lt))) = true
      rw [lockedOf_apply_witness sp0.2 _ (hI.bal sp0 hsp0)]
      exact verify_apply_witness sp0.2 _ _ (hI.bal sp0 hsp0)
    · intro sp hsp
      have h1 : sp ∈ sweepPend (Witness.Timestamp lt) b.pending :=
        (List.mem_filter.mp hsp).1
      obtain ⟨sp0, hsp0, hmap⟩ := List.mem_map.mp h1
      have : sp.1 = sp0.1 := by rw [← hmap]
      rw [this]
      exact hI.used sp0 hsp0
  · rw [if_neg hm]
    exact { sum := hI.sum, nodupB := hI.nodupB, nodupP := hI.nodupP,
            bal := hI.bal, used := hI.used }

/-- `apply_signature` preserves the conservation invariant. -/
theorem apply_signature_cons_inv (b : Bank) (f : PublicKey) (s : Signature)
    (D : Int) (U : Nat → Prop) (hI : ConsInv b D U) :
    ConsInv (apply_signature b f s) D U := by
  unfold apply_signature
  split
  · exact hI
  rename_i plan hlook
  dsimp only
  have hmem := mem_of_lookupKey b.pending s plan hlook
  have hver : plan.verify (lockedOf plan) = true := hI.bal (s, plan) hmem
  have hver' : (plan.apply_witness (Witness.Signature f)).verify (lockedOf plan) = true :=
    verify_apply_witness plan _ _ hver
  have hlock' : lockedOf (plan.apply_witness (Witness.Signature f)) = lockedOf plan :=
    lockedOf_apply_witness plan _ hver
  split
  · rename_i pay hfin
    have hpt : pay.tokens = lockedOf plan :=
      final_payment_tokens _ (lockedOf plan) pay hver' hfin
    refine { sum := ?_, nodupB := ?_, nodupP := ?_, bal := ?_, used := ?_ }
    · show sumBals (apply_payment b.balances pay) +
        sumPending (b.pending.filter fun sp => sp.1 ≠ s) = D
      rw [sumBals_apply_payment _ _ hI.nodupB,
        sumPending_remove b.pending s plan hI.nodupP hlook, hpt]
      have hs := hI.sum
      linarith
    · exact apply_payment_keys_nodup _ _ hI.nodupB
    · have h2 : ((b.pending.filter fun sp => sp.1 ≠ s).map Prod.fst).Sublist
          (b.pending.map Prod.fst) :=
        List.Sublist.map Prod.fst (List.filter_sublist _)
      exact List.Nodup.sublist h2 hI.nodupP
    · intro sp hsp
      exact hI.bal sp (List.mem_filter.mp hsp).1
    · intro sp hsp
      exact hI.used sp (List.mem_filter.mp hsp).1
  · rename_i hfin
    refine { sum := ?_, nodupB := hI.nodupB, nodupP := ?_, bal := ?_, used := ?_ }
    · show sumBals b.balances +
        sumPending (b.pending.map fun sp =>
          if sp.1 = s then (sp.1, plan.apply_witness (Witness.Signature f)) else sp) = D
      rw [sumPending_replace b.pending s _ plan hI.nodupP hlook, hlock']
      have hs := hI.sum
      linarith
    · have hkeys : ((b.pending.map fun sp =>
          if sp.1 = s then (sp.1, plan.apply_witness (Witness.Signature f)) else sp).map
            Prod.fst) = b.pending.map Prod.fst := by
        rw [List.map_map]
        apply List.map_congr_left
        intro sp _
        by_cases hk : sp.1 = s
        · simp [hk]
        · simp [hk]
      rw [hkeys]
      exact hI.nodupP
    · intro sp hsp
      obtain ⟨sp0, hsp0, hmap⟩ := List.mem_map.mp hsp
      by_cases hk : sp0.1 = s
      · rw [if_pos hk] at hmap
        rw [← hmap]
        show (plan.apply_witness (Witness.Signature f)).verify
          (lockedOf (plan.apply_witness (Witness.Signature f))) = true
        rw [hlock']
        exact hver'
      · rw [if_neg hk] at hmap
        rw [← hmap]
        exact hI.bal sp0 hsp0
    · intro sp hsp
      obtain ⟨sp0, hsp0, hmap⟩ := List.mem_map.mp hsp
      by_cases hk : sp0.1 = s
      · rw [if_pos hk] at hmap
        have h1 : sp.1 = sp0.1 := by rw [← hmap]
        rw [h1]
        exact hI.used sp0 hsp0
      · rw [if_neg hk] at hmap
        rw [← hmap]
        exact hI.used sp0 hsp0

/-- Characterization of a successful `apply_debits`. -/
theorem apply_debits_ok_spec (b : Bank) (tx : Transaction) (b1 : Bank)
    (hd : apply_debits b tx = (b1, none)) :
    b1.pending = b.pending ∧ b1.last_time = b.last_time ∧
    ((∃ c v, tx.instruction = .NewContract c ∧
        b1.balances = debitBal b.balances tx.from_ c.tokens ∧
        lookupKey tx.from_ b.balances = some v) ∨
      ((∀ c, tx.instruction ≠ .NewContract c) ∧ b1.balances = b.balances)) := by
  unfold apply_debits at hd
  split at hd
  · exact Option.noConfusion (congrArg Prod.snd hd)
  split at hd
  · exact Option.noConfusion (congrArg Prod.snd hd)
  rename_i bal hlook
  split at hd
  · exact Option.noConfusion (congrArg Prod.snd hd)
  rename_i lids hres
  split at hd
  · rename_i c hinstr
    split at hd
    · exact Option.noConfusion (congrArg Prod.snd hd)
    · rw [Prod.mk.injEq] at hd
      obtain ⟨hb1, -⟩ := hd
      subst hb1
      exact ⟨rfl, rfl, Or.inl ⟨c, bal, hinstr, rfl, hlook⟩⟩
  · rename_i hother
    rw [Prod.mk.injEq] at hd
    obtain ⟨hb1, -⟩ := hd
    subst hb1
    refine ⟨rfl, rfl, Or.inr ⟨?_, rfl⟩⟩
    intro c hc
    exact hother c hc

/-- `process_transaction` preserves the conservation invariant for a
zero-fee transaction passing `verify_plan` whose signature is fresh. -/
theorem process_transaction_cons_inv (b : Bank) (tx : Transaction) (D : Int)
    (U : Nat → Prop) (hI : ConsInv b D U) (hfee : tx.fee = 0)
    (hvp : tx.verify_plan = true) (hfresh : ¬ U tx.sig) :
    ConsInv (process_transaction b tx).1 D (fun s => s = tx.sig ∨ U s) := by
  have hmono : ∀ (b2 : Bank), ConsInv b2 D U →
      ConsInv b2 D (fun s => s = tx.sig ∨ U s) := fun b2 h =>
    { sum := h.sum, nodupB := h.nodupB, nodupP := h.nodupP, bal := h.bal,
      used := fun sp hsp => Or.inr (h.used sp hsp) }
  rcases hd : apply_debits b tx with ⟨b1, e1⟩
  cases e1 with
  | some e2 =>
    rw [process_transaction_err b b1 tx e2 hd]
    have hid := apply_debits_none_or_id b tx
    rw [hd] at hid
    rcases hid with h1 | h1
    · exact absurd h1 (by simp)
    · have h2 : b1 = b := h1
      rw [h2]
      exact hmono b hI
  | none =>
    rw [process_transaction_ok b b1 tx hd]
    obtain ⟨hpend, htime, hbal⟩ := apply_debits_ok_spec b tx b1 hd
    have hIb1bal : ∀ sp ∈ b1.pending, sp.2.verify (lockedOf sp.2) = true := by
      rw [hpend]; exact hI.bal
    have hIb1used : ∀ sp ∈ b1.pending, U sp.1 := by
      rw [hpend]; exact hI.used
    have hIb1nodupP : (b1.pending.map Prod.fst).Nodup := by
      rw [hpend]; exact hI.nodupP
    unfold apply_credits
    cases hinstr : tx.instruction with
    | ApplyTimestamp dt =>
      rcases hbal with ⟨c, v, hinstr2, -, -⟩ | ⟨-, hbb⟩
      · rw [hinstr] at hinstr2; cases hinstr2
      · have hIb1 : ConsInv b1 D U :=
          { sum := by rw [hbb, hpend]; exact hI.sum
            nodupB := by rw [hbb]; exact hI.nodupB
            nodupP := hIb1nodupP, bal := hIb1bal, used := hIb1used }
        exact hmono _ (apply_timestamp_cons_inv b1 tx.from_ dt D U hIb1)
    | ApplySignature s2 =>
      rcases hbal with ⟨c, v, hinstr2, -, -⟩ | ⟨-, hbb⟩
      · rw [hinstr] at hinstr2; cases hinstr2
      · have hIb1 : ConsInv b1 D U :=
          { sum := by rw [hbb, hpend]; exact hI.sum
            nodupB := by rw [hbb]; exact hI.nodupB
            nodupP := hIb1nodupP, bal := hIb1bal, used := hIb1used }
        exact hmono _ (apply_signature_cons_inv b1 tx.from_ s2 D U hIb1)
    | NewContract c =>
      rcases hbal with ⟨c2, v, hinstr2, hb1b, hlookv⟩ | ⟨hno, -⟩
      · have hcc : c2 = c := by
          rw [hinstr] at hinstr2
          cases hinstr2
          rfl
        subst hcc
        dsimp only
        have hver0 : c2.plan.verify c2.tokens = true := by
          unfold Transaction.verify_plan at hvp
          rw [hinstr] at hvp
          simp only [Bool.and_eq_true, decide_eq_true_eq] at hvp
          have h3 := hvp.2
          rw [hfee] at h3
          simpa using h3
        have hver : (c2.plan.apply_witness (Witness.Timestamp b1.last_time)).verify
            c2.tokens = true := verify_apply_witness _ _ _ hver0
        have hsumb1 : sumBals b1.balances = sumBals b.balances - c2.tokens := by
          rw [hb1b]
          exact sumBals_debitBal b.balances tx.from_ c2.tokens v hI.nodupB hlookv
        have hnodb1 : (b1.balances.map Prod.fst).Nodup := by
          rw [hb1b, debitBal_keys]
          exact hI.nodupB
        split
        · rename_i pay hfin
          have hpt : pay.tokens = c2.tokens :=
            final_payment_tokens _ c2.tokens pay hver hfin
          refine hmono _ ?_
          refine { sum := ?_, nodupB := ?_, nodupP := hIb1nodupP, bal := hIb1bal, used := hIb1used }
          · show sumBals (apply_payment b1.balances pay) + sumPending b1.pending = D
            rw [sumBals_apply_payment _ _ hnodb1, hsumb1, hpt, hpend]
            have hs := hI.sum
            linarith
          · exact apply_payment_keys_nodup _ _ hnodb1
        · rename_i hfin
          have hsig_not : tx.sig ∉ b1.pending.map Prod.fst := by
            rw [hpend]
            intro hc
            obtain ⟨sp, hsp, hspe⟩ := List.mem_map.mp hc
            exact hfresh (hspe ▸ hI.used sp hsp)
          have hlooknone : lookupKey tx.sig b1.pending = none :=
            lookupKey_none_of_not_mem _ _ hsig_not
          have hins : insertPending b1.pending tx.sig
              (c2.plan.apply_witness (Witness.Timestamp b1.last_time)) =
              b1.pending ++ [(tx.sig, c2.plan.apply_witness (Witness.Timestamp b1.last_time))] := by
            unfold insertPending
            rw [hlooknone]
            simp
          refine { sum := ?_, nodupB := hnodb1, nodupP := ?_, bal := ?_, used := ?_ }
          · show sumBals b1.balances + sumPending (insertPending b1.pending tx.sig
              (c2.plan.apply_witness (Witness.Timestamp b1.last_time))) = D
            rw [hins, sumPending_append, hsumb1, hpend,
              lockedOf_eq_of_verify _ c2.tokens hver]
            have hs := hI.sum
            linarith
          · show ((insertPending b1.pending tx.sig
              (c2.plan.apply_witness (Witness.Timestamp b1.last_time))).map Prod.fst).Nodup
            rw [hins, List.map_append]
            simp only [List.map_cons, List.map_nil]
            rw [List.nodup_append]
            refine ⟨hIb1nodupP, List.nodup_singleton _, ?_⟩
            intro a ha hb2
            simp only [List.mem_singleton] at hb2
            subst hb2
            exact hsig_not ha
          · intro sp hsp
            rw [hins] at hsp
            rcases List.mem_append.mp hsp with h1 | h1
            · exact hIb1bal sp h1
            · simp only [List.mem_singleton] at h1
              rw [h1]
              show (c2.plan.apply_witness (Witness.Timestamp b1.last_time)).verify
                (lockedOf (c2.plan.apply_witness (Witness.Timestamp b1.last_time))) = true
              rw [lockedOf_eq_of_verify _ c2.tokens hver]
              exact hver
          · intro sp hsp
            rw [hins] at hsp
            rcases List.mem_append.mp hsp with h1 | h1
            · exact Or.inr (hIb1used sp h1)
            · simp only [List.mem_singleton] at h1
              rw [h1]
              exact Or.inl rfl
      · exact absurd hinstr (hno c)

/-- `register_entry_id` preserves the conservation invariant. -/
theorem register_cons_inv (b : Bank) (h : Hash) (D : Int) (U : Nat → Prop)
    (hI : ConsInv b D U) :
    ConsInv { b with last_ids := register_entry_id b.last_ids h } D U :=
  { sum := hI.sum, nodupB := hI.nodupB, nodupP := hI.nodupP, bal := hI.bal, used := hI.used }

/-- Conservation over a whole operation sequence with zero fees, verified
plans and pairwise-distinct signatures. -/
theorem runTxOps_cons_inv (ops : List TxOp) : ∀ (b : Bank) (D : Int) (U : Nat → Prop),
    ConsInv b D U →
    (∀ t ∈ txOpTxs ops, t.fee = 0 ∧ t.verify_plan = true) →
    (txOpSigs ops).Nodup →
    (∀ s ∈ txOpSigs ops, ¬ U s) →
    ConsInv (runTxOps b ops) D (fun s => s ∈ txOpSigs ops ∨ U s) := by
  induction ops with
  | nil =>
    intro b D U hI _ _ _
    exact { sum := hI.sum, nodupB := hI.nodupB, nodupP := hI.nodupP, bal := hI.bal,
            used := fun sp hsp => Or.inr (hI.used sp hsp) }
  | cons op rest ih =>
    intro b D U hI hgood hnd hdisj
    cases op with
    | ptx t =>
      show ConsInv (runTxOps (process_transaction b t).1 rest) D _
      have hmemt : t ∈ txOpTxs (TxOp.ptx t :: rest) := by simp [txOpTxs]
      have hg := hgood t hmemt
      have hsigs : txOpSigs (TxOp.ptx t :: rest) = t.sig :: txOpSigs rest := rfl
      rw [hsigs] at hnd hdisj
      rw [List.nodup_cons] at hnd
      have h1 := process_transaction_cons_inv b t D U hI hg.1 hg.2
        (hdisj t.sig (List.mem_cons_self _ _))
      have h2 := ih _ D _ h1
        (fun t2 ht2 => hgood t2 (by simp [txOpTxs, ht2]))
        hnd.2
        (fun s hs => by
          rintro (hc | hc)
          · exact hnd.1 (hc ▸ hs)
          · exact hdisj s (List.mem_cons_of_mem _ hs) hc)
      refine { sum := h2.sum, nodupB := h2.nodupB, nodupP := h2.nodupP,
               bal := h2.bal, used := ?_ }
      intro sp hsp
      rcases h2.used sp hsp with hc | hc | hc
      · exact Or.inl (by rw [hsigs]; exact List.mem_cons_of_mem _ hc)
      · exact Or.inl (by rw [hsigs]; exact hc ▸ List.mem_cons_self _ _)
      · exact Or.inr hc
    | reg h =>
      show ConsInv (runTxOps { b with last_ids := register_entry_id b.last_ids h } rest) D _
      have h1 := register_cons_inv b h D U hI
      have hsigs : txOpSigs (TxOp.reg h :: rest) = txOpSigs rest := rfl
      rw [hsigs] at hnd hdisj ⊢
      exact ih _ D U h1 (fun t2 ht2 => hgood t2 (by simp [txOpTxs, ht2])) hnd hdisj

/-! Claim C1 (corrected). -/

/-- C1 counterexample: `taxedTx` passes `verify_plan` and is admitted, but
it debits 2 tokens and credits only 1 — the fee is destroyed, so the sum
of balances plus pending-locked tokens drops from 5 to 4. -/
theorem c1_counterexample :
    sumBals (runTxOps (new_from_deposit { tokens := 5, to_ := 0 })
        [TxOp.reg 0, TxOp.ptx taxedTx]).balances +
      sumPending (runTxOps (new_from_deposit { tokens := 5, to_ := 0 })
        [TxOp.reg 0, TxOp.ptx taxedTx]).pending ≠ 5 := by
  decide

/-- C1 amended: for any sequence of `process_transaction` and
`register_entry_id` calls starting from a deposit `D`, in which every
transaction has zero fee, passes `verify_plan`, and the signatures are
pairwise distinct, the sum of all balances plus the sum of the tokens
locked in pending plans equals `D.tokens`. -/
theorem c1_conservation (D : Payment) (ops : List TxOp)
    (hgood : ∀ t ∈ txOpTxs ops, t.fee = 0 ∧ t.verify_plan = true)
    (hnd : (txOpSigs ops).Nodup) :
    sumBals (runTxOps (new_from_deposit D) ops).balances +
      sumPending (runTxOps (new_from_deposit D) ops).pending = D.tokens := by
  have hI0 : ConsInv (new_from_deposit D) D.tokens (fun _ => False) := by
    refine { sum := ?_, nodupB := ?_, nodupP := ?_, bal := ?_, used := ?_ }
    · show sumBals [(D.to_, D.tokens)] + sumPending [] = D.tokens
      unfold sumBals sumPending
      simp
    · show (([(D.to_, D.tokens)] : Balances).map Prod.fst).Nodup
      simp
    · show (([] : Pending).map Prod.fst).Nodup
      simp
    · intro sp hsp
      cases hsp
    · intro sp hsp
      cases hsp
  exact (runTxOps_cons_inv ops (new_from_deposit D) D.tokens _ hI0 hgood hnd
    (fun s _ hc => hc)).sum

/-- C1 witness: a registration followed by a plain transfer conserves the
deposit. -/
theorem c1_witness :
    (∀ t ∈ txOpTxs [TxOp.reg 0, TxOp.ptx (mkTransfer 1 0 1 2 0)],
      t.fee = 0 ∧ t.verify_plan = true) ∧
    (txOpSigs [TxOp.reg 0, TxOp.ptx (mkTransfer 1 0 1 2 0)]).Nodup ∧
    sumBals (runTxOps (new_from_deposit { tokens := 5, to_ := 0 })
        [TxOp.reg 0, TxOp.ptx (mkTransfer 1 0 1 2 0)]).balances +
      sumPending (runTxOps (new_from_deposit { tokens := 5, to_ := 0 })
        [TxOp.reg 0, TxOp.ptx (mkTransfer 1 0 1 2 0)]).pending =
      ({ tokens := 5, to_ := 0 } : Payment).tokens :=
  ⟨by decide, by decide, c1_conservation _ _ (by decide) (by decide)⟩
